import Mathlib

/-!
Verification of `src/update_icon.py`.

The script reads a base64 payload file, builds a data URI, performs two
literal substring replacements on the contents of an icons source file
(Python `str.replace`, which replaces every non-overlapping occurrence,
scanning left to right), and writes the file back only when the text
changed.  Strings are modelled as `List Char`; the filesystem is modelled
as two optional file contents, and the process as a pure function from
that world to a result (new world, printed messages, exit code, and the
read and write events performed).
-/

/-- Single quote character (written via its code point to keep source clean). -/
def quoteC : Char := Char.ofNat 39

/-- Double quote character. -/
def dquoteC : Char := Char.ofNat 34

/-- Fuel-indexed worker for Python `str.replace` with a nonempty pattern:
scan left to right; on a match emit the replacement and skip past the
matched pattern (the replacement text itself is not rescanned).  The fuel
only needs to be at least the length of the scanned list. -/
def replaceAux [DecidableEq α] (p r : List α) : Nat → List α → List α
  | _, [] => []
  | 0, s => s
  | fuel + 1, c :: s' =>
    if p <+: (c :: s') then r ++ replaceAux p r fuel ((c :: s').drop p.length)
    else c :: replaceAux p r fuel s'

/-- Python `str.replace self old new`: every non-overlapping occurrence of
`p` in `s` is replaced by `r`, scanning left to right.  For the empty
pattern Python inserts `r` at every position, matching `r ++ s.flatMap (c :: r)`. -/
def replace [DecidableEq α] (p r s : List α) : List α :=
  if p.isEmpty then r ++ s.flatMap (fun c => c :: r)
  else replaceAux p r s.length s

/-- Python whitespace test for the characters `str.strip` removes: exactly
the code points on which CPython `str.isspace` holds — the ASCII control
whitespace 0x09–0x0D, the separators 0x1C–0x1F, space 0x20, next line 0x85,
no-break space 0xA0, and the Unicode space separators 0x1680, 0x2000–0x200A,
0x2028, 0x2029, 0x202F, 0x205F, 0x3000. -/
def isPySpace (c : Char) : Bool :=
  [9, 10, 11, 12, 13, 28, 29, 30, 31, 32, 133, 160, 5760, 8192, 8193, 8194,
    8195, 8196, 8197, 8198, 8199, 8200, 8201, 8202, 8232, 8233, 8239, 8287,
    12288].contains c.toNat

/-- Python `str.strip()`: drop leading and trailing whitespace. -/
def pyStrip (s : List Char) : List Char :=
  ((s.dropWhile isPySpace).reverse.dropWhile isPySpace).reverse

/-- Line 18 of the script: `data_uri = f"data:image/png;base64,{b64_content}"`. -/
def data_uri (b64_content : List Char) : List Char :=
  "data:image/png;base64,".data ++ b64_content

/-- The shared shape of both targets and both replacements after their
leading label: a single quote, `url(`, and a double quote. -/
def urlOpen : List Char := [quoteC] ++ "url(".data ++ [dquoteC]

/-- The shared 3-character tail of targets and replacements: `")` and a quote. -/
def tail3 : List Char := [dquoteC, Char.ofNat 41, quoteC]

/-- The literal icon path appearing in both target strings. -/
def iconPath : List Char := "/highlighter-icon.png".data

/-- Line 24: `target_mask = "maskImage: 'url(\"/highlighter-icon.png\")'"`. -/
def target_mask : List Char := "maskImage: ".data ++ urlOpen ++ iconPath ++ tail3

/-- Line 25: `target_webkit = "WebkitMaskImage: 'url(\"/highlighter-icon.png\")'"`. -/
def target_webkit : List Char := "WebkitMaskImage: ".data ++ urlOpen ++ iconPath ++ tail3

/-- Line 27: `replacement_mask = f"maskImage: 'url(\"{data_uri}\")'"`. -/
def replacement_mask (uri : List Char) : List Char :=
  "maskImage: ".data ++ urlOpen ++ uri ++ tail3

/-- Line 28: `replacement_webkit = f"WebkitMaskImage: 'url(\"{data_uri}\")'"`. -/
def replacement_webkit (uri : List Char) : List Char :=
  "WebkitMaskImage: ".data ++ urlOpen ++ uri ++ tail3

/-- Lines 30 and 31: first replace the `maskImage` target, then the
`WebkitMaskImage` target, in the result. -/
def new_content (uri content : List Char) : List Char :=
  replace target_webkit (replacement_webkit uri)
    (replace target_mask (replacement_mask uri) content)

/-- The two files the script touches. -/
inductive FileId
  | icons
  | b64
deriving DecidableEq, Repr

/-- Filesystem events the script can perform. -/
inductive Event
  | readFile (f : FileId)
  | writeFile (f : FileId)
deriving DecidableEq, Repr

/-- The filesystem as the script sees it: the contents of the two files,
`none` when the path does not exist. -/
structure World where
  icons : Option (List Char)
  b64 : Option (List Char)
deriving DecidableEq

/-- Observable outcome of one run of the script. -/
structure RunResult where
  world : World
  output : List (List Char)
  exitCode : Nat
  events : List Event
deriving DecidableEq

/-- Line 8: `Error: {icons_path} not found`. -/
def errIconsMsg : List Char :=
  "Error: /Users/isaiahcalvo/Desktop/Survey/src/Icons.jsx not found".data

/-- Line 12: `Error: {b64_path} not found`. -/
def errB64Msg : List Char :=
  "Error: /Users/isaiahcalvo/Desktop/Survey/temp_highlighter_b64.txt not found".data

/-- Line 34 warning message. -/
def warnMsg : List Char :=
  "Warning: No changes made. Targets might not match.".data

/-- Line 38 success message. -/
def successMsg : List Char :=
  "Successfully updated Icons.jsx with base64 icon.".data

/-- The whole script, lines 7 to 38: check the icons path, then the payload
path, exiting with status 1 on a missing file before any read; read and
strip the payload, build the data URI, read the icons file, perform the two
replacements; if nothing changed print the warning and leave the file
alone, otherwise overwrite the icons file and print the success message. -/
def run (w : World) : RunResult :=
  match w.icons with
  | none => ⟨w, [errIconsMsg], 1, []⟩
  | some content =>
    match w.b64 with
    | none => ⟨w, [errB64Msg], 1, []⟩
    | some raw =>
      let uri := data_uri (pyStrip raw)
      let nc := new_content uri content
      if content = nc then
        ⟨w, [warnMsg], 0, [Event.readFile FileId.b64, Event.readFile FileId.icons]⟩
      else
        ⟨{ icons := some nc, b64 := w.b64 }, [successMsg], 0,
          [Event.readFile FileId.b64, Event.readFile FileId.icons,
            Event.writeFile FileId.icons]⟩

/-- Number of positions of `s` at which `p` matches, that is, the number of
suffixes of `s` that start with `p` (for the patterns in this file, which
have no nontrivial border, this is also the number of non-overlapping
occurrences that `replace` rewrites). -/
def countOcc [DecidableEq α] (p : List α) : List α → Nat
  | [] => if p <+: ([] : List α) then 1 else 0
  | c :: s' => (if p <+: (c :: s') then 1 else 0) + countOcc p s'

set_option maxRecDepth 20000

theorem replaceAux_congr [DecidableEq α] {p : List α} (hp : p ≠ []) (r : List α) :
    ∀ f₁ f₂ s, s.length ≤ f₁ → s.length ≤ f₂ →
      replaceAux p r f₁ s = replaceAux p r f₂ s := by
  intro f₁
  induction f₁ with
  | zero =>
    intro f₂ s h1 _
    have : s = [] := List.eq_nil_of_length_eq_zero (Nat.le_zero.mp h1)
    subst this
    cases f₂ <;> rfl
  | succ a ih =>
    intro f₂ s h1 h2
    cases s with
    | nil => cases f₂ <;> rfl
    | cons c s' =>
      cases f₂ with
      | zero => simp at h2
      | succ b =>
        have hlen : s'.length ≤ a := Nat.lt_succ_iff.mp h1
        have hlen' : s'.length ≤ b := Nat.lt_succ_iff.mp h2
        show (if p <+: (c :: s') then
                r ++ replaceAux p r a ((c :: s').drop p.length)
              else c :: replaceAux p r a s') =
             (if p <+: (c :: s') then
                r ++ replaceAux p r b ((c :: s').drop p.length)
              else c :: replaceAux p r b s')
        by_cases hm : p <+: (c :: s')
        · have hplen : 1 ≤ p.length := List.length_pos.mpr hp
          have hd : ((c :: s').drop p.length).length ≤ s'.length := by
            simp only [List.length_drop, List.length_cons]
            omega
          rw [if_pos hm, if_pos hm, ih _ _ (le_trans hd hlen) (le_trans hd hlen')]
        · rw [if_neg hm, if_neg hm, ih _ _ hlen hlen']

theorem replace_eq_aux [DecidableEq α] {p : List α} (hp : p ≠ []) (r s : List α) :
    replace p r s = replaceAux p r s.length s := by
  have : p.isEmpty = false := by
    cases p with
    | nil => exact absurd rfl hp
    | cons a l => rfl
  simp [replace, this]

theorem replace_nil [DecidableEq α] {p : List α} (hp : p ≠ []) (r : List α) :
    replace p r [] = [] := by
  rw [replace_eq_aux hp]; rfl

theorem replace_cons_pos [DecidableEq α] {p : List α} (hp : p ≠ []) (r : List α)
    {c : α} {s' : List α} (hm : p <+: (c :: s')) :
    replace p r (c :: s') = r ++ replace p r ((c :: s').drop p.length) := by
  rw [replace_eq_aux hp, replace_eq_aux hp]
  have hplen : 1 ≤ p.length := List.length_pos.mpr hp
  have step : replaceAux p r (c :: s').length (c :: s') =
      if p <+: (c :: s') then
        r ++ replaceAux p r s'.length ((c :: s').drop p.length)
      else c :: replaceAux p r s'.length s' := rfl
  rw [step, if_pos hm]
  congr 1
  apply replaceAux_congr hp
  · simp only [List.length_drop, List.length_cons]; omega
  · exact le_rfl

theorem replace_cons_neg [DecidableEq α] {p : List α} (hp : p ≠ []) (r : List α)
    {c : α} {s' : List α} (hm : ¬ p <+: (c :: s')) :
    replace p r (c :: s') = c :: replace p r s' := by
  rw [replace_eq_aux hp, replace_eq_aux hp]
  have step : replaceAux p r (c :: s').length (c :: s') =
      if p <+: (c :: s') then
        r ++ replaceAux p r s'.length ((c :: s').drop p.length)
      else c :: replaceAux p r s'.length s' := rfl
  rw [step, if_neg hm]

theorem replace_pattern_head [DecidableEq α] {p : List α} (hp : p ≠ []) (r t : List α) :
    replace p r (p ++ t) = r ++ replace p r t := by
  cases hp' : p with
  | nil => exact absurd hp' hp
  | cons a p' =>
    rw [← hp']
    have hcons : p ++ t = a :: (p' ++ t) := by rw [hp']; rfl
    rw [hcons]
    have hm : p <+: a :: (p' ++ t) := by rw [← hcons]; exact List.prefix_append p t
    rw [replace_cons_pos hp r hm]
    congr 1
    rw [← hcons, List.drop_left]

theorem infix_iff_drop {α : Type _} (p s : List α) :
    p <:+: s ↔ ∃ i, p <+: s.drop i := by
  constructor
  · rintro ⟨a, b, rfl⟩
    refine ⟨a.length, ?_⟩
    rw [List.append_assoc, List.drop_left]
    exact List.prefix_append p b
  · rintro ⟨i, t, ht⟩
    exact ⟨s.take i, t, by rw [List.append_assoc, ht, List.take_append_drop]⟩

theorem not_infix_iff_drop {α : Type _} (p s : List α) :
    ¬ p <:+: s ↔ ∀ i, ¬ p <+: s.drop i := by
  rw [infix_iff_drop]; push_neg; rfl

theorem prefix_append_cases {α : Type _} {q a b : List α} (h : q <+: a ++ b) :
    q <+: a ∨ a <+: q :=
  List.prefix_or_prefix_of_prefix h (List.prefix_append a b)

theorem infix_cons_elim {α : Type _} {p : List α} {c : α} {s' : List α}
    (h : p <:+: (c :: s')) (hm : ¬ p <+: (c :: s')) : p <:+: s' := by
  rw [infix_iff_drop] at h ⊢
  obtain ⟨i, hi⟩ := h
  cases i with
  | zero => exact absurd hi hm
  | succ j => exact ⟨j, hi⟩

theorem replace_of_no_occ [DecidableEq α] {p : List α} (hp : p ≠ []) (r : List α)
    {s : List α} (h : ¬ p <:+: s) : replace p r s = s := by
  induction s with
  | nil => exact replace_nil hp r
  | cons c s' ih =>
    rw [not_infix_iff_drop] at h
    have h0 : ¬ p <+: (c :: s') := by have := h 0; simpa using this
    rw [replace_cons_neg hp r h0]
    have h' : ¬ p <:+: s' := by
      rw [not_infix_iff_drop]
      intro i
      have := h (i + 1)
      simpa using this
    rw [ih h']

theorem replace_length_mono [DecidableEq α] {p r : List α} (hp : p ≠ [])
    (hr : p.length ≤ r.length) : ∀ s : List α, s.length ≤ (replace p r s).length := by
  have H : ∀ n (s : List α), s.length ≤ n → s.length ≤ (replace p r s).length := by
    intro n
    induction n with
    | zero =>
      intro s hs
      have : s = [] := List.eq_nil_of_length_eq_zero (Nat.le_zero.mp hs)
      subst this
      simp [replace_nil hp]
    | succ n ih =>
      intro s hs
      cases s with
      | nil => simp [replace_nil hp]
      | cons c s' =>
        simp only [List.length_cons] at hs
        by_cases hm : p <+: (c :: s')
        · rw [replace_cons_pos hp r hm]
          have hplen1 : 1 ≤ p.length := List.length_pos.mpr hp
          have hplen : p.length ≤ s'.length + 1 := by
            have := hm.length_le
            simpa using this
          have hd : ((c :: s').drop p.length).length = s'.length + 1 - p.length := by
            simp [List.length_drop]
          have ihh := ih ((c :: s').drop p.length) (by rw [hd]; omega)
          rw [hd] at ihh
          simp only [List.length_append, List.length_cons]
          omega
        · rw [replace_cons_neg hp r hm]
          have := ih s' (by omega)
          simp only [List.length_cons]
          omega
  exact fun s => H s.length s le_rfl

theorem replace_length_strict [DecidableEq α] {p r : List α} (hp : p ≠ [])
    (hr : p.length < r.length) :
    ∀ s : List α, p <:+: s → s.length < (replace p r s).length := by
  have H : ∀ n (s : List α), s.length ≤ n → p <:+: s →
      s.length < (replace p r s).length := by
    intro n
    induction n with
    | zero =>
      intro s hs hocc
      have hsnil : s = [] := List.eq_nil_of_length_eq_zero (Nat.le_zero.mp hs)
      subst hsnil
      have hl := hocc.length_le
      simp only [List.length_nil, Nat.le_zero] at hl
      exact absurd (List.eq_nil_of_length_eq_zero hl) hp
    | succ n ih =>
      intro s hs hocc
      cases s with
      | nil =>
        have hl := hocc.length_le
        simp only [List.length_nil, Nat.le_zero] at hl
        exact absurd (List.eq_nil_of_length_eq_zero hl) hp
      | cons c s' =>
        simp only [List.length_cons] at hs
        by_cases hm : p <+: (c :: s')
        · rw [replace_cons_pos hp r hm]
          have hplen1 : 1 ≤ p.length := List.length_pos.mpr hp
          have hplen : p.length ≤ s'.length + 1 := by
            have := hm.length_le
            simpa using this
          have hd : ((c :: s').drop p.length).length = s'.length + 1 - p.length := by
            simp [List.length_drop]
          have ihh := replace_length_mono hp (le_of_lt hr) ((c :: s').drop p.length)
          rw [hd] at ihh
          simp only [List.length_append, List.length_cons]
          omega
        · rw [replace_cons_neg hp r hm]
          have hocc' : p <:+: s' := infix_cons_elim hocc hm
          have := ih s' (by omega) hocc'
          simp only [List.length_cons]
          omega
  exact fun s => H s.length s le_rfl

theorem replacement_mask_length (u : List Char) :
    (replacement_mask u).length = 20 + u.length := by
  have h1 : ("maskImage: ".data).length = 11 := by decide
  have h2 : urlOpen.length = 6 := by decide
  have h3 : tail3.length = 3 := by decide
  simp only [replacement_mask, List.length_append, h1, h2, h3]
  omega

theorem replacement_webkit_length (u : List Char) :
    (replacement_webkit u).length = 26 + u.length := by
  have h1 : ("WebkitMaskImage: ".data).length = 17 := by decide
  have h2 : urlOpen.length = 6 := by decide
  have h3 : tail3.length = 3 := by decide
  simp only [replacement_webkit, List.length_append, h1, h2, h3]
  omega

theorem data_uri_length (w : List Char) : (data_uri w).length = 22 + w.length := by
  have h1 : ("data:image/png;base64,".data).length = 22 := by decide
  simp only [data_uri, List.length_append, h1]

theorem target_mask_length : target_mask.length = 41 := by decide

theorem target_webkit_length : target_webkit.length = 47 := by decide

theorem target_mask_ne_nil : target_mask ≠ [] := by decide

theorem target_webkit_ne_nil : target_webkit ≠ [] := by decide

theorem new_content_length_lt {w content : List Char}
    (h : target_mask <:+: content ∨ target_webkit <:+: content) :
    content.length < (new_content (data_uri w) content).length := by
  have hlrm : target_mask.length < (replacement_mask (data_uri w)).length := by
    rw [target_mask_length, replacement_mask_length, data_uri_length]
    omega
  have hlrwk : target_webkit.length < (replacement_webkit (data_uri w)).length := by
    rw [target_webkit_length, replacement_webkit_length, data_uri_length]
    omega
  unfold new_content
  by_cases htm : target_mask <:+: content
  · have h1 := replace_length_strict target_mask_ne_nil hlrm content htm
    have h2 := replace_length_mono target_webkit_ne_nil (le_of_lt hlrwk)
      (replace target_mask (replacement_mask (data_uri w)) content)
    omega
  · have h1 : replace target_mask (replacement_mask (data_uri w)) content = content :=
      replace_of_no_occ target_mask_ne_nil _ htm
    rw [h1]
    exact replace_length_strict target_webkit_ne_nil hlrwk content (h.resolve_left htm)

theorem new_content_eq_self_iff (w content : List Char) :
    new_content (data_uri w) content = content ↔
      ¬ target_mask <:+: content ∧ ¬ target_webkit <:+: content := by
  constructor
  · intro h
    by_contra hcon
    have hor : target_mask <:+: content ∨ target_webkit <:+: content := by tauto
    have := new_content_length_lt (w := w) hor
    rw [h] at this
    omega
  · rintro ⟨h1, h2⟩
    unfold new_content
    rw [replace_of_no_occ target_mask_ne_nil _ h1,
      replace_of_no_occ target_webkit_ne_nil _ h2]

/-- Claim C4: when neither target substring occurs in the icons file, the run
leaves the world unchanged, prints exactly the no-change warning, performs
no write (only the two reads), and exits with status 0. -/
theorem claim_C4 (content raw : List Char)
    (h1 : ¬ target_mask <:+: content) (h2 : ¬ target_webkit <:+: content) :
    run (World.mk (some content) (some raw)) =
      RunResult.mk (World.mk (some content) (some raw)) [warnMsg] 0
        [Event.readFile FileId.b64, Event.readFile FileId.icons] := by
  have hnc : new_content (data_uri (pyStrip raw)) content = content :=
    (new_content_eq_self_iff _ _).mpr ⟨h1, h2⟩
  simp [run, hnc]

theorem claim_C4_witness :
    run (World.mk (some "hello".data) (some "AA".data)) =
      RunResult.mk (World.mk (some "hello".data) (some "AA".data)) [warnMsg] 0
        [Event.readFile FileId.b64, Event.readFile FileId.icons] :=
  claim_C4 "hello".data "AA".data (by decide) (by decide)

/-- Claim C5: when an input path is missing the run exits with status 1,
changes nothing, performs no read or write at all, and the message printed
identifies the first missing file in check order (icons first). -/
theorem claim_C5 (w : World) (h : w.icons = none ∨ w.b64 = none) :
    (run w).exitCode = 1 ∧ (run w).world = w ∧ (run w).events = [] ∧
      (w.icons = none → (run w).output = [errIconsMsg]) ∧
      (w.icons ≠ none → (run w).output = [errB64Msg]) := by
  obtain ⟨wi, wb⟩ := w
  cases wi with
  | none => simp [run]
  | some c =>
    cases wb with
    | none => simp [run]
    | some r => simp at h

theorem claim_C5_witness :
    (run (World.mk none (some "AA".data))).exitCode = 1 ∧
      (run (World.mk none (some "AA".data))).world = World.mk none (some "AA".data) ∧
      (run (World.mk none (some "AA".data))).events = [] ∧
      ((World.mk none (some "AA".data)).icons = none →
        (run (World.mk none (some "AA".data))).output = [errIconsMsg]) ∧
      ((World.mk none (some "AA".data)).icons ≠ none →
        (run (World.mk none (some "AA".data))).output = [errB64Msg]) :=
  claim_C5 (World.mk none (some "AA".data)) (Or.inl rfl)

/-- Claim C8: the run exits with a non-zero status exactly when one of the
two input paths is missing, and in every case prints exactly one message,
drawn from the fixed set of messages of the script. -/
theorem claim_C8 (w : World) :
    ((run w).exitCode ≠ 0 ↔ w.icons = none ∨ w.b64 = none) ∧
      (run w).output.length = 1 ∧
      ((run w).output = [errIconsMsg] ∨ (run w).output = [errB64Msg] ∨
        (run w).output = [warnMsg] ∨ (run w).output = [successMsg]) := by
  obtain ⟨wi, wb⟩ := w
  cases wi with
  | none => simp [run]
  | some c =>
    cases wb with
    | none => simp [run]
    | some r =>
      by_cases hnc : c = new_content (data_uri (pyStrip r)) c
      · simp [run, ← hnc]
      · simp [run, hnc]

/-- Claim C10: the payload file is never written: its contents are unchanged
in the final world, and no write event ever targets it (every write in the
two-file model targets the icons file). -/
theorem claim_C10 (w : World) :
    (run w).world.b64 = w.b64 ∧
      ((run w).events.contains (Event.writeFile FileId.b64)) = false := by
  obtain ⟨wi, wb⟩ := w
  cases wi with
  | none => simp [run]
  | some c =>
    cases wb with
    | none => simp [run]
    | some r =>
      by_cases hnc : c = new_content (data_uri (pyStrip r)) c
      · simp [run, ← hnc]
      · simp [run, hnc]

/-- Claim C9: the icons file is overwritten exactly when the original text
contains an occurrence of one of the two targets; the written text always
differs from the original because each replacement is strictly longer than
its target (the data URI carries the 22-character prefix). -/
theorem claim_C9 (content raw : List Char) :
    ((run (World.mk (some content) (some raw))).events.contains
        (Event.writeFile FileId.icons) = true ↔
      (target_mask <:+: content ∨ target_webkit <:+: content)) ∧
    ((run (World.mk (some content) (some raw))).world =
        World.mk (some content) (some raw) ↔
      ¬ (target_mask <:+: content ∨ target_webkit <:+: content)) := by
  by_cases hnc : content = new_content (data_uri (pyStrip raw)) content
  · have hiff := (new_content_eq_self_iff (pyStrip raw) content).mp hnc.symm
    simp [run, ← hnc]
    tauto
  · have hor : target_mask <:+: content ∨ target_webkit <:+: content := by
      by_contra hno
      push_neg at hno
      exact hnc ((new_content_eq_self_iff (pyStrip raw) content).mpr hno).symm
    have hne : World.mk (some (new_content (data_uri (pyStrip raw)) content))
        (some raw) ≠ World.mk (some content) (some raw) := by
      intro heq
      have : new_content (data_uri (pyStrip raw)) content = content := by
        have := congrArg World.icons heq
        simpa using this
      exact hnc this.symm
    simp [run, hnc]
    tauto

/-- Claim C6: the data URI is the fixed prefix followed by the payload text
stripped of leading and trailing whitespace only; `pyStrip` removes exactly
a whitespace block at each end and preserves the middle verbatim, and the
worked example of the spec evaluates as stated. -/
theorem claim_C6 :
    (∀ raw : List Char, ∃ a b, raw = a ++ pyStrip raw ++ b ∧
        (∀ c ∈ a, isPySpace c = true) ∧ (∀ c ∈ b, isPySpace c = true)) ∧
      data_uri (pyStrip "  abcd1234==\n".data) =
        "data:image/png;base64,abcd1234==".data := by
  constructor
  · intro raw
    refine ⟨raw.takeWhile isPySpace,
      ((raw.dropWhile isPySpace).reverse.takeWhile isPySpace).reverse, ?_, ?_, ?_⟩
    · conv_lhs => rw [← List.takeWhile_append_dropWhile isPySpace raw]
      rw [List.append_assoc]
      congr 1
      conv_lhs => rw [← List.reverse_reverse (raw.dropWhile isPySpace),
        ← List.takeWhile_append_dropWhile isPySpace (raw.dropWhile isPySpace).reverse]
      rw [List.reverse_append]
      rfl
    · exact fun c hc => List.mem_takeWhile_imp hc
    · intro c hc
      rw [List.mem_reverse] at hc
      exact List.mem_takeWhile_imp hc
  · decide

/-- Claim C1 counterexample: a source text that contains each target exactly
once but also already contains the replacement string for the mask target;
after substitution the replacement string occurs twice, not exactly once as
the claim asserts. -/
theorem claim_C1_counterexample :
    countOcc target_mask
        (target_mask ++ target_webkit ++ replacement_mask (data_uri "AAAA".data)) = 1 ∧
      countOcc target_webkit
        (target_mask ++ target_webkit ++ replacement_mask (data_uri "AAAA".data)) = 1 ∧
      countOcc (replacement_mask (data_uri "AAAA".data))
        (new_content (data_uri "AAAA".data)
          (target_mask ++ target_webkit ++ replacement_mask (data_uri "AAAA".data))) = 2 := by
  refine ⟨by decide, by decide, by decide⟩

/-- Claim C2 counterexample: with a payload that itself contains the webkit
target string, the two replacements do not commute: on a source text equal
to the mask target alone, replacing the mask target first embeds a copy of
the webkit target which the second pass then rewrites, while the opposite
order leaves it intact. -/
theorem claim_C2_counterexample :
    replace target_webkit (replacement_webkit (data_uri (pyStrip target_webkit)))
        (replace target_mask (replacement_mask (data_uri (pyStrip target_webkit)))
          target_mask) ≠
      replace target_mask (replacement_mask (data_uri (pyStrip target_webkit)))
        (replace target_webkit (replacement_webkit (data_uri (pyStrip target_webkit)))
          target_mask) := by
  decide

/-- Claim C3 counterexample: with a payload that itself contains the mask
target string, the substitution is not idempotent: the first run embeds a
copy of the mask target inside the data URI, which a second run rewrites
again. -/
theorem claim_C3_counterexample :
    new_content (data_uri (pyStrip target_mask))
        (new_content (data_uri (pyStrip target_mask)) target_mask) ≠
      new_content (data_uri (pyStrip target_mask)) target_mask := by
  decide

theorem countOcc_nil [DecidableEq α] {p : List α} (hp : p ≠ []) : countOcc p [] = 0 := by
  simp [countOcc, List.prefix_nil, hp]

/-- A pattern is border free when no proper nonempty prefix of it is also a
suffix of it; both target strings are border free. -/
def BorderFree (p : List α) : Prop :=
  ∀ k, k < p.length → 0 < k → p.take k ≠ p.drop (p.length - k)

theorem take_of_prefix_append {α : Type _} {p a t : List α} (h : p <+: a ++ t)
    (ha : a.length ≤ p.length) : p.take a.length = a := by
  have hpre := List.prefix_iff_eq_take.mp h
  rw [hpre, List.take_take, Nat.min_eq_left ha, List.take_append_eq_append_take]
  simp

theorem countOcc_drop_pattern [DecidableEq α] {p : List α} (_hp : p ≠ [])
    (hb : BorderFree p) (t : List α) :
    ∀ n k, p.length - k = n → 0 < k → k ≤ p.length →
      countOcc p (p.drop k ++ t) = countOcc p t := by
  intro n
  induction n with
  | zero =>
    intro k hn h0 hk
    have : k = p.length := by omega
    subst this
    simp
  | succ n ih =>
    intro k hn h0 hk
    have hklt : k < p.length := by omega
    have hdrop : p.drop k = p[k] :: p.drop (k + 1) := List.drop_eq_getElem_cons hklt
    rw [hdrop, List.cons_append, countOcc]
    have hif : ¬ p <+: (p[k] :: (p.drop (k + 1) ++ t)) := by
      intro hpre
      rw [show p[k] :: (p.drop (k + 1) ++ t) = p.drop k ++ t from by
        rw [hdrop, List.cons_append]] at hpre
      have hlen : (p.drop k).length ≤ p.length := by
        simp [List.length_drop]
      have := take_of_prefix_append hpre hlen
      rw [List.length_drop] at this
      exact hb (p.length - k) (by omega) (by omega)
        (by rw [this, Nat.sub_sub_self (le_of_lt hklt)])
    rw [if_neg hif, Nat.zero_add]
    rcases Nat.lt_or_ge (k + 1) p.length with h | h
    · exact ih (k + 1) (by omega) (by omega) (by omega)
    · have : k + 1 = p.length := by omega
      rw [this]
      simp

theorem countOcc_pattern_head [DecidableEq α] {p : List α} (hp : p ≠ [])
    (hb : BorderFree p) (t : List α) :
    countOcc p (p ++ t) = 1 + countOcc p t := by
  cases hpp : p with
  | nil => exact absurd hpp hp
  | cons c p' =>
    rw [← hpp]
    have : p ++ t = c :: (p' ++ t) := by rw [hpp]; rfl
    rw [this, countOcc]
    have hm : p <+: c :: (p' ++ t) := by rw [← this]; exact List.prefix_append p t
    rw [if_pos hm]
    have h1 : p' ++ t = p.drop 1 ++ t := by rw [hpp]; rfl
    rw [h1, countOcc_drop_pattern hp hb t (p.length - 1) 1 rfl Nat.one_pos
      (by rw [hpp]; simp)]

theorem infix_cons_iff_here {α : Type _} (p : List α) (c : α) (s' : List α) :
    p <:+: (c :: s') ↔ p <+: (c :: s') ∨ p <:+: s' := by
  rw [infix_iff_drop, infix_iff_drop]
  constructor
  · rintro ⟨i, hi⟩
    cases i with
    | zero => exact Or.inl hi
    | succ j => exact Or.inr ⟨j, hi⟩
  · rintro (h | ⟨j, hj⟩)
    · exact ⟨0, h⟩
    · exact ⟨j + 1, hj⟩

theorem countOcc_eq_zero_iff [DecidableEq α] {p : List α} (hp : p ≠ [])
    (s : List α) : countOcc p s = 0 ↔ ¬ p <:+: s := by
  induction s with
  | nil =>
    rw [countOcc_nil hp]
    simp [List.infix_nil, hp]
  | cons c s' ih =>
    rw [countOcc, infix_cons_iff_here]
    by_cases hm : p <+: (c :: s')
    · simp [hm]
    · simp [hm, ih]

theorem replace_length_eq [DecidableEq α] {p r : List α} (hp : p ≠ [])
    (hb : BorderFree p) (hr : p.length ≤ r.length) :
    ∀ s : List α, (replace p r s).length = s.length + countOcc p s * (r.length - p.length) := by
  have H : ∀ n (s : List α), s.length ≤ n →
      (replace p r s).length = s.length + countOcc p s * (r.length - p.length) := by
    intro n
    induction n with
    | zero =>
      intro s hs
      have : s = [] := List.eq_nil_of_length_eq_zero (Nat.le_zero.mp hs)
      subst this
      rw [replace_nil hp, countOcc_nil hp]
      simp
    | succ n ih =>
      intro s hs
      cases s with
      | nil =>
        rw [replace_nil hp, countOcc_nil hp]
        simp
      | cons c s' =>
        simp only [List.length_cons] at hs
        by_cases hm : p <+: (c :: s')
        · have hsplit : p ++ (c :: s').drop p.length = c :: s' :=
            List.prefix_iff_eq_append.mp hm
          have hplen1 : 1 ≤ p.length := List.length_pos.mpr hp
          have hplen : p.length ≤ s'.length + 1 := by
            have := hm.length_le
            simpa using this
          have hd : ((c :: s').drop p.length).length = s'.length + 1 - p.length := by
            simp [List.length_drop]
          rw [replace_cons_pos hp r hm]
          have ihh := ih ((c :: s').drop p.length) (by rw [hd]; omega)
          have hcnt : countOcc p (c :: s') = 1 + countOcc p ((c :: s').drop p.length) := by
            conv_lhs => rw [← hsplit]
            exact countOcc_pattern_head hp hb _
          rw [List.length_append, ihh, hcnt, hd]
          have hΔ : p.length ≤ r.length := hr
          generalize countOcc p ((c :: s').drop p.length) = m
          simp only [List.length_cons]
          have : (1 + m) * (r.length - p.length) = (r.length - p.length) + m * (r.length - p.length) := by
            ring
          rw [this]
          omega
        · rw [replace_cons_neg hp r hm, countOcc, if_neg hm, Nat.zero_add]
          have := ih s' (by omega)
          simp only [List.length_cons, this]
          omega
  exact fun s => H s.length s le_rfl

theorem target_mask_borderFree : BorderFree target_mask := by
  unfold BorderFree
  decide

theorem target_webkit_borderFree : BorderFree target_webkit := by
  unfold BorderFree
  decide

/-- Claim C7: the substitution is a literal global replace: for each target
separately, whenever that target occurs `n ≥ 2` times in the source text,
the length of the output of its replacement pass grows by `n` whole
replacement increments, one for every occurrence, not only the first.  The
two conjuncts are independent implications, so a source in which only one
of the targets repeats is covered. -/
theorem claim_C7 (w s : List Char) :
    (2 ≤ countOcc target_mask s →
        (replace target_mask (replacement_mask (data_uri w)) s).length =
          s.length + countOcc target_mask s * (1 + w.length)) ∧
      (2 ≤ countOcc target_webkit s →
        (replace target_webkit (replacement_webkit (data_uri w)) s).length =
          s.length + countOcc target_webkit s * (1 + w.length)) := by
  constructor
  · intro _
    have := replace_length_eq (r := replacement_mask (data_uri w)) target_mask_ne_nil
      target_mask_borderFree
      (by rw [target_mask_length, replacement_mask_length, data_uri_length]; omega) s
    rw [this, target_mask_length, replacement_mask_length, data_uri_length]
    have h42 : 20 + (22 + w.length) - 41 = 1 + w.length := by omega
    rw [h42]
  · intro _
    have := replace_length_eq (r := replacement_webkit (data_uri w)) target_webkit_ne_nil
      target_webkit_borderFree
      (by rw [target_webkit_length, replacement_webkit_length, data_uri_length]; omega) s
    rw [this, target_webkit_length, replacement_webkit_length, data_uri_length]
    have h48 : 26 + (22 + w.length) - 47 = 1 + w.length := by omega
    rw [h48]

theorem claim_C7_witness :
    (2 ≤ countOcc target_mask (target_mask ++ target_mask) ∧
      (replace target_mask (replacement_mask (data_uri "AAAA".data))
          (target_mask ++ target_mask)).length =
        (target_mask ++ target_mask).length +
          countOcc target_mask (target_mask ++ target_mask) *
            (1 + ("AAAA".data).length)) ∧
    (2 ≤ countOcc target_webkit (target_webkit ++ target_webkit) ∧
      (replace target_webkit (replacement_webkit (data_uri "AAAA".data))
          (target_webkit ++ target_webkit)).length =
        (target_webkit ++ target_webkit).length +
          countOcc target_webkit (target_webkit ++ target_webkit) *
            (1 + ("AAAA".data).length)) := by
  refine ⟨⟨by decide, ?_⟩, ⟨by decide, ?_⟩⟩
  · exact (claim_C7 "AAAA".data (target_mask ++ target_mask)).1 (by decide)
  · exact (claim_C7 "AAAA".data (target_webkit ++ target_webkit)).2 (by decide)

/-- `NoCross q z` says that an occurrence of `q` can never overlap the block
`z` in any surrounding context: `q` does not occur inside `z`, no nonempty
suffix of `z` is a proper prefix of `q`, no proper nonempty suffix of `q` is
a prefix of `z`, and `z` does not occur inside `q`. -/
def NoCross (q z : List α) : Prop :=
  (¬ q <:+: z) ∧
  (∀ k, k < q.length → 0 < k → k ≤ z.length →
    z.drop (z.length - k) ≠ q.take k) ∧
  (∀ k, k < q.length → 0 < k → q.length - k ≤ z.length →
    q.drop k ≠ z.take (q.length - k)) ∧
  (¬ z <:+: q)

theorem NoCross.no_match_within {α : Type _} {q z : List α} (h : NoCross q z)
    (X : List α) (i : Nat) (hi : i < z.length) : ¬ q <+: (z ++ X).drop i := by
  intro hpre
  rw [List.drop_append_eq_append_drop, Nat.sub_eq_zero_of_le (le_of_lt hi),
    List.drop_zero] at hpre
  rcases prefix_append_cases hpre with hc | hc
  · exact h.1 ((infix_iff_drop _ _).mpr ⟨i, hc⟩)
  · have hklen : (z.drop i).length = z.length - i := List.length_drop i z
    have hkle : z.length - i ≤ q.length := by
      have := hc.length_le
      omega
    rcases Nat.eq_or_lt_of_le hkle with heq | hlt
    · have hzq : z.drop i = q := hc.eq_of_length (by omega)
      exact h.1 ((infix_iff_drop _ _).mpr ⟨i, by rw [hzq]⟩)
    · have htake : z.drop i = q.take (z.length - i) := by
        have := List.prefix_iff_eq_take.mp hc
        rw [this, hklen]
      have hii : z.length - (z.length - i) = i := by omega
      exact h.2.1 (z.length - i) hlt (by omega) (by omega) (by rw [hii]; exact htake)

theorem replace_append_of_no_match [DecidableEq α] {p : List α} (hp : p ≠ [])
    (r : List α) : ∀ (a t : List α),
      (∀ i, i < a.length → ¬ p <+: (a ++ t).drop i) →
      replace p r (a ++ t) = a ++ replace p r t := by
  intro a
  induction a with
  | nil => intro t _; simp
  | cons c a' ih =>
    intro t h
    have h0 : ¬ p <+: (c :: (a' ++ t)) := by
      have := h 0 (by simp)
      simpa using this
    have h' : ∀ i, i < a'.length → ¬ p <+: (a' ++ t).drop i := by
      intro i hi
      have := h (i + 1) (by simp only [List.length_cons]; omega)
      simpa using this
    rw [List.cons_append, replace_cons_neg hp r h0, ih t h', List.cons_append]

theorem replace_block_absorb [DecidableEq α] {p z : List α} (hp : p ≠ [])
    (h : NoCross p z) (r t : List α) :
    replace p r (z ++ t) = z ++ replace p r t :=
  replace_append_of_no_match hp r z t (fun i hi => h.no_match_within t i hi)

theorem replace_transfer [DecidableEq α] {p r q : List α} (hp : p ≠ [])
    (hcross : NoCross q r) :
    ∀ s k, 0 < k → k < q.length → q.drop k <+: replace p r s → q.drop k <+: s := by
  have H : ∀ n (s : List α), s.length ≤ n → ∀ k, 0 < k → k < q.length →
      q.drop k <+: replace p r s → q.drop k <+: s := by
    intro n
    induction n with
    | zero =>
      intro s hs k h0 hk hpre
      have hnil : s = [] := List.eq_nil_of_length_eq_zero (Nat.le_zero.mp hs)
      subst hnil
      rw [replace_nil hp] at hpre
      exact hpre
    | succ n ih =>
      intro s hs k h0 hk hpre
      cases s with
      | nil => rw [replace_nil hp] at hpre; exact hpre
      | cons c s' =>
        simp only [List.length_cons] at hs
        by_cases hm : p <+: (c :: s')
        · rw [replace_cons_pos hp r hm] at hpre
          rcases prefix_append_cases hpre with hc | hc
          · have hlen : q.length - k ≤ r.length := by
              have := hc.length_le
              rw [List.length_drop] at this
              omega
            have htake : q.drop k = r.take (q.length - k) := by
              have := List.prefix_iff_eq_take.mp hc
              rw [this, List.length_drop]
            exact absurd htake (hcross.2.2.1 k hk h0 hlen)
          · exact absurd ((infix_iff_drop _ _).mpr ⟨k, hc⟩) hcross.2.2.2
        · rw [replace_cons_neg hp r hm] at hpre
          have hqk : q.drop k = q[k] :: q.drop (k + 1) := List.drop_eq_getElem_cons hk
          rw [hqk, List.cons_prefix_cons] at hpre
          obtain ⟨hqc, htail⟩ := hpre
          rw [hqk, List.cons_prefix_cons]
          refine ⟨hqc, ?_⟩
          rcases Nat.eq_or_lt_of_le (Nat.succ_le_of_lt hk) with heq | hlt
          · rw [show k + 1 = q.length from heq, List.drop_length]
            exact List.nil_prefix
          · exact ih s' (by omega) (k + 1) (by omega) hlt htail
  exact fun s => H s.length s le_rfl

/-- Proof device: one left-to-right scan that rewrites the first pattern it
finds at each position, trying `p₁` before `p₂`.  Both composition orders of
the two single-pattern passes agree with it when the patterns and
replacements cannot interfere. -/
def replace2Aux [DecidableEq α] (p₁ r₁ p₂ r₂ : List α) : Nat → List α → List α
  | _, [] => []
  | 0, s => s
  | fuel + 1, c :: s' =>
    if p₁ <+: (c :: s') then
      r₁ ++ replace2Aux p₁ r₁ p₂ r₂ fuel ((c :: s').drop p₁.length)
    else if p₂ <+: (c :: s') then
      r₂ ++ replace2Aux p₁ r₁ p₂ r₂ fuel ((c :: s').drop p₂.length)
    else c :: replace2Aux p₁ r₁ p₂ r₂ fuel s'

/-- Single simultaneous scan for the two patterns, with enough fuel. -/
def replace2 [DecidableEq α] (p₁ r₁ p₂ r₂ s : List α) : List α :=
  replace2Aux p₁ r₁ p₂ r₂ s.length s

theorem replace2Aux_congr [DecidableEq α] {p₁ p₂ : List α} (hp₁ : p₁ ≠ [])
    (hp₂ : p₂ ≠ []) (r₁ r₂ : List α) :
    ∀ f₁ f₂ s, s.length ≤ f₁ → s.length ≤ f₂ →
      replace2Aux p₁ r₁ p₂ r₂ f₁ s = replace2Aux p₁ r₁ p₂ r₂ f₂ s := by
  intro f₁
  induction f₁ with
  | zero =>
    intro f₂ s h1 _
    have : s = [] := List.eq_nil_of_length_eq_zero (Nat.le_zero.mp h1)
    subst this
    cases f₂ <;> rfl
  | succ a ih =>
    intro f₂ s h1 h2
    cases s with
    | nil => cases f₂ <;> rfl
    | cons c s' =>
      cases f₂ with
      | zero => simp at h2
      | succ b =>
        have hlen : s'.length ≤ a := Nat.lt_succ_iff.mp h1
        have hlen' : s'.length ≤ b := Nat.lt_succ_iff.mp h2
        have hp₁len : 1 ≤ p₁.length := List.length_pos.mpr hp₁
        have hp₂len : 1 ≤ p₂.length := List.length_pos.mpr hp₂
        show (if p₁ <+: (c :: s') then
                r₁ ++ replace2Aux p₁ r₁ p₂ r₂ a ((c :: s').drop p₁.length)
              else if p₂ <+: (c :: s') then
                r₂ ++ replace2Aux p₁ r₁ p₂ r₂ a ((c :: s').drop p₂.length)
              else c :: replace2Aux p₁ r₁ p₂ r₂ a s') =
             (if p₁ <+: (c :: s') then
                r₁ ++ replace2Aux p₁ r₁ p₂ r₂ b ((c :: s').drop p₁.length)
              else if p₂ <+: (c :: s') then
                r₂ ++ replace2Aux p₁ r₁ p₂ r₂ b ((c :: s').drop p₂.length)
              else c :: replace2Aux p₁ r₁ p₂ r₂ b s')
        by_cases hm1 : p₁ <+: (c :: s')
        · have hd : ((c :: s').drop p₁.length).length ≤ s'.length := by
            simp only [List.length_drop, List.length_cons]
            omega
          rw [if_pos hm1, if_pos hm1, ih _ _ (le_trans hd hlen) (le_trans hd hlen')]
        · by_cases hm2 : p₂ <+: (c :: s')
          · have hd : ((c :: s').drop p₂.length).length ≤ s'.length := by
              simp only [List.length_drop, List.length_cons]
              omega
            rw [if_neg hm1, if_neg hm1, if_pos hm2, if_pos hm2,
              ih _ _ (le_trans hd hlen) (le_trans hd hlen')]
          · rw [if_neg hm1, if_neg hm1, if_neg hm2, if_neg hm2,
              ih _ _ hlen hlen']

theorem replace2_nil [DecidableEq α] (p₁ r₁ p₂ r₂ : List α) :
    replace2 p₁ r₁ p₂ r₂ [] = [] := rfl

theorem replace2_cons_p1 [DecidableEq α] {p₁ p₂ : List α} (hp₁ : p₁ ≠ [])
    (hp₂ : p₂ ≠ []) (r₁ r₂ : List α) {c : α} {s' : List α}
    (hm1 : p₁ <+: (c :: s')) :
    replace2 p₁ r₁ p₂ r₂ (c :: s') =
      r₁ ++ replace2 p₁ r₁ p₂ r₂ ((c :: s').drop p₁.length) := by
  have hp₁len : 1 ≤ p₁.length := List.length_pos.mpr hp₁
  have step : replace2Aux p₁ r₁ p₂ r₂ (c :: s').length (c :: s') =
      if p₁ <+: (c :: s') then
        r₁ ++ replace2Aux p₁ r₁ p₂ r₂ s'.length ((c :: s').drop p₁.length)
      else if p₂ <+: (c :: s') then
        r₂ ++ replace2Aux p₁ r₁ p₂ r₂ s'.length ((c :: s').drop p₂.length)
      else c :: replace2Aux p₁ r₁ p₂ r₂ s'.length s' := rfl
  show replace2Aux p₁ r₁ p₂ r₂ (c :: s').length (c :: s') = _
  rw [step, if_pos hm1]
  congr 1
  apply replace2Aux_congr hp₁ hp₂
  · simp only [List.length_drop, List.length_cons]; omega
  · exact le_rfl

theorem replace2_cons_p2 [DecidableEq α] {p₁ p₂ : List α} (hp₁ : p₁ ≠ [])
    (hp₂ : p₂ ≠ []) (r₁ r₂ : List α) {c : α} {s' : List α}
    (hm1 : ¬ p₁ <+: (c :: s')) (hm2 : p₂ <+: (c :: s')) :
    replace2 p₁ r₁ p₂ r₂ (c :: s') =
      r₂ ++ replace2 p₁ r₁ p₂ r₂ ((c :: s').drop p₂.length) := by
  have hp₂len : 1 ≤ p₂.length := List.length_pos.mpr hp₂
  have step : replace2Aux p₁ r₁ p₂ r₂ (c :: s').length (c :: s') =
      if p₁ <+: (c :: s') then
        r₁ ++ replace2Aux p₁ r₁ p₂ r₂ s'.length ((c :: s').drop p₁.length)
      else if p₂ <+: (c :: s') then
        r₂ ++ replace2Aux p₁ r₁ p₂ r₂ s'.length ((c :: s').drop p₂.length)
      else c :: replace2Aux p₁ r₁ p₂ r₂ s'.length s' := rfl
  show replace2Aux p₁ r₁ p₂ r₂ (c :: s').length (c :: s') = _
  rw [step, if_neg hm1, if_pos hm2]
  congr 1
  apply replace2Aux_congr hp₁ hp₂
  · simp only [List.length_drop, List.length_cons]; omega
  · exact le_rfl

theorem replace2_cons_neg [DecidableEq α] {p₁ p₂ : List α} (_hp₁ : p₁ ≠ [])
    (_hp₂ : p₂ ≠ []) (r₁ r₂ : List α) {c : α} {s' : List α}
    (hm1 : ¬ p₁ <+: (c :: s')) (hm2 : ¬ p₂ <+: (c :: s')) :
    replace2 p₁ r₁ p₂ r₂ (c :: s') = c :: replace2 p₁ r₁ p₂ r₂ s' := by
  have step : replace2Aux p₁ r₁ p₂ r₂ (c :: s').length (c :: s') =
      if p₁ <+: (c :: s') then
        r₁ ++ replace2Aux p₁ r₁ p₂ r₂ s'.length ((c :: s').drop p₁.length)
      else if p₂ <+: (c :: s') then
        r₂ ++ replace2Aux p₁ r₁ p₂ r₂ s'.length ((c :: s').drop p₂.length)
      else c :: replace2Aux p₁ r₁ p₂ r₂ s'.length s' := rfl
  show replace2Aux p₁ r₁ p₂ r₂ (c :: s').length (c :: s') = _
  rw [step, if_neg hm1, if_neg hm2]
  rfl

theorem replace2_sym [DecidableEq α] {p₁ p₂ : List α} (hp₁ : p₁ ≠ [])
    (hp₂ : p₂ ≠ []) (r₁ r₂ : List α) (h12 : ¬ p₁ <+: p₂) (h21 : ¬ p₂ <+: p₁) :
    ∀ s, replace2 p₁ r₁ p₂ r₂ s = replace2 p₂ r₂ p₁ r₁ s := by
  have H : ∀ n (s : List α), s.length ≤ n →
      replace2 p₁ r₁ p₂ r₂ s = replace2 p₂ r₂ p₁ r₁ s := by
    intro n
    induction n with
    | zero =>
      intro s hs
      have : s = [] := List.eq_nil_of_length_eq_zero (Nat.le_zero.mp hs)
      subst this
      rfl
    | succ n ih =>
      intro s hs
      cases s with
      | nil => rfl
      | cons c s' =>
        simp only [List.length_cons] at hs
        have hp₁len : 1 ≤ p₁.length := List.length_pos.mpr hp₁
        have hp₂len : 1 ≤ p₂.length := List.length_pos.mpr hp₂
        by_cases hm1 : p₁ <+: (c :: s')
        · have hm2 : ¬ p₂ <+: (c :: s') := by
            intro hm2
            rcases List.prefix_or_prefix_of_prefix hm1 hm2 with h | h
            · exact h12 h
            · exact h21 h
          rw [replace2_cons_p1 hp₁ hp₂ r₁ r₂ hm1,
            replace2_cons_p2 hp₂ hp₁ r₂ r₁ hm2 hm1]
          congr 1
          apply ih
          have := hm1.length_le
          simp only [List.length_drop, List.length_cons] at *
          omega
        · by_cases hm2 : p₂ <+: (c :: s')
          · rw [replace2_cons_p2 hp₁ hp₂ r₁ r₂ hm1 hm2,
              replace2_cons_p1 hp₂ hp₁ r₂ r₁ hm2]
            congr 1
            apply ih
            have := hm2.length_le
            simp only [List.length_drop, List.length_cons] at *
            omega
          · rw [replace2_cons_neg hp₁ hp₂ r₁ r₂ hm1 hm2,
              replace2_cons_neg hp₂ hp₁ r₂ r₁ hm2 hm1]
            congr 1
            apply ih
            omega
  exact fun s => H s.length s le_rfl

theorem replace_replace_eq_replace2 [DecidableEq α] {p₁ r₁ p₂ r₂ : List α}
    (hp₁ : p₁ ≠ []) (hp₂ : p₂ ≠ []) (h21 : NoCross p₂ r₁) (h12 : NoCross p₁ p₂) :
    ∀ s, replace p₂ r₂ (replace p₁ r₁ s) = replace2 p₁ r₁ p₂ r₂ s := by
  have H : ∀ n (s : List α), s.length ≤ n →
      replace p₂ r₂ (replace p₁ r₁ s) = replace2 p₁ r₁ p₂ r₂ s := by
    intro n
    induction n with
    | zero =>
      intro s hs
      have : s = [] := List.eq_nil_of_length_eq_zero (Nat.le_zero.mp hs)
      subst this
      rw [replace_nil hp₁, replace_nil hp₂, replace2_nil]
    | succ n ih =>
      intro s hs
      cases s with
      | nil => rw [replace_nil hp₁, replace_nil hp₂, replace2_nil]
      | cons c s' =>
        simp only [List.length_cons] at hs
        have hp₁len : 1 ≤ p₁.length := List.length_pos.mpr hp₁
        have hp₂len : 1 ≤ p₂.length := List.length_pos.mpr hp₂
        by_cases hm1 : p₁ <+: (c :: s')
        · rw [replace_cons_pos hp₁ r₁ hm1,
            replace_append_of_no_match hp₂ r₂ r₁ _
              (fun i hi => h21.no_match_within _ i hi),
            replace2_cons_p1 hp₁ hp₂ r₁ r₂ hm1]
          congr 1
          apply ih
          have := hm1.length_le
          simp only [List.length_drop, List.length_cons] at *
          omega
        · by_cases hm2 : p₂ <+: (c :: s')
          · have hsplit : p₂ ++ (c :: s').drop p₂.length = c :: s' :=
              List.prefix_iff_eq_append.mp hm2
            have habs : replace p₁ r₁ (c :: s') =
                p₂ ++ replace p₁ r₁ ((c :: s').drop p₂.length) := by
              conv_lhs => rw [← hsplit]
              exact replace_append_of_no_match hp₁ r₁ p₂ _
                (fun i hi => h12.no_match_within _ i hi)
            rw [habs, replace_pattern_head hp₂ r₂ _,
              replace2_cons_p2 hp₁ hp₂ r₁ r₂ hm1 hm2]
            congr 1
            apply ih
            have := hm2.length_le
            simp only [List.length_drop, List.length_cons] at *
            omega
          · rw [replace_cons_neg hp₁ r₁ hm1]
            have hnp2 : ¬ p₂ <+: (c :: replace p₁ r₁ s') := by
              intro hpre
              apply hm2
              obtain ⟨d, p₂', hq⟩ := List.exists_cons_of_ne_nil hp₂
              rw [hq, List.cons_prefix_cons] at hpre
              obtain ⟨hdc, htail⟩ := hpre
              rw [hq, List.cons_prefix_cons]
              refine ⟨hdc, ?_⟩
              rcases Nat.eq_or_lt_of_le (show 1 ≤ p₂.length from hp₂len) with heq | hlt
              · have hnil : p₂' = [] := by
                  have := congrArg List.length hq
                  simp only [List.length_cons] at this
                  apply List.eq_nil_of_length_eq_zero
                  omega
                rw [hnil]
                exact List.nil_prefix
              · have htail' : p₂.drop 1 <+: replace p₁ r₁ s' := by
                  rw [hq]
                  simpa using htail
                have htr := replace_transfer hp₁ h21 s' 1 Nat.one_pos hlt htail'
                rw [hq] at htr
                simpa using htr
            rw [replace_cons_neg hp₂ r₂ hnp2,
              replace2_cons_neg hp₁ hp₂ r₁ r₂ hm1 hm2]
            congr 1
            apply ih
            omega
  exact fun s => H s.length s le_rfl

theorem replace_comm [DecidableEq α] {p₁ r₁ p₂ r₂ : List α}
    (hp₁ : p₁ ≠ []) (hp₂ : p₂ ≠ [])
    (h21 : NoCross p₂ r₁) (h12p : NoCross p₁ p₂)
    (h12 : NoCross p₁ r₂) (h21p : NoCross p₂ p₁) (s : List α) :
    replace p₂ r₂ (replace p₁ r₁ s) = replace p₁ r₁ (replace p₂ r₂ s) := by
  rw [replace_replace_eq_replace2 hp₁ hp₂ h21 h12p s,
    replace_replace_eq_replace2 hp₂ hp₁ h12 h21p s,
    replace2_sym hp₁ hp₂ r₁ r₂ (fun h => h12p.1 h.isInfix) (fun h => h21p.1 h.isInfix) s]

theorem drop_full_append {α : Type _} (a b : List α) {n : Nat} (hn : a.length ≤ n) :
    (a ++ b).drop n = b.drop (n - a.length) := by
  rw [List.drop_append_eq_append_drop, List.drop_eq_nil_of_le hn, List.nil_append]

theorem take_full_append {α : Type _} (a b : List α) {n : Nat} (hn : a.length ≤ n) :
    (a ++ b).take n = a ++ b.take (n - a.length) := by
  rw [List.take_append_eq_append_take, List.take_of_length_le hn]

theorem head_match_transfer [DecidableEq α] {p r q : List α} (hp : p ≠ [])
    (hq : q ≠ []) (hcross : NoCross q r) {c : α} {s' : List α}
    (hpre : q <+: c :: replace p r s') : q <+: c :: s' := by
  obtain ⟨d, q', hq'⟩ := List.exists_cons_of_ne_nil hq
  rw [hq', List.cons_prefix_cons] at hpre ⊢
  obtain ⟨hdc, htail⟩ := hpre
  refine ⟨hdc, ?_⟩
  have hq1 : 1 ≤ q.length := List.length_pos.mpr hq
  rcases Nat.eq_or_lt_of_le hq1 with heq | hlt
  · have hnil : q' = [] := by
      have := congrArg List.length hq'
      simp only [List.length_cons] at this
      apply List.eq_nil_of_length_eq_zero
      omega
    rw [hnil]
    exact List.nil_prefix
  · have htail' : q.drop 1 <+: replace p r s' := by
      rw [hq']
      simpa using htail
    have htr := replace_transfer hp hcross s' 1 Nat.one_pos hlt htail'
    rw [hq'] at htr
    simpa using htr

theorem replace_no_new_occ [DecidableEq α] {p r q : List α} (hp : p ≠ [])
    (hq : q ≠ []) (hcross : NoCross q r) :
    ∀ s, (q = p ∨ ∀ i, ¬ q <+: s.drop i) →
      ∀ i, ¬ q <+: (replace p r s).drop i := by
  have H : ∀ n (s : List α), s.length ≤ n →
      (q = p ∨ ∀ i, ¬ q <+: s.drop i) →
      ∀ i, ¬ q <+: (replace p r s).drop i := by
    intro n
    induction n with
    | zero =>
      intro s hs hH i hpre
      have : s = [] := List.eq_nil_of_length_eq_zero (Nat.le_zero.mp hs)
      subst this
      rw [replace_nil hp, List.drop_nil] at hpre
      exact hq (List.prefix_nil.mp hpre)
    | succ n ih =>
      intro s hs hH i hpre
      cases s with
      | nil =>
        rw [replace_nil hp, List.drop_nil] at hpre
        exact hq (List.prefix_nil.mp hpre)
      | cons c s' =>
        simp only [List.length_cons] at hs
        have hplen : 1 ≤ p.length := List.length_pos.mpr hp
        by_cases hm : p <+: (c :: s')
        · rw [replace_cons_pos hp r hm] at hpre
          rcases Nat.lt_or_ge i r.length with hir | hir
          · exact hcross.no_match_within _ i hir hpre
          · rw [drop_full_append r _ hir] at hpre
            have hplen' : p.length ≤ s'.length + 1 := by
              have := hm.length_le
              simpa using this
            refine ih ((c :: s').drop p.length)
              (by simp only [List.length_drop, List.length_cons]; omega) ?_ _ hpre
            rcases hH with hqp | hno
            · exact Or.inl hqp
            · refine Or.inr fun j => ?_
              rw [List.drop_drop]
              exact hno (p.length + j)
        · rw [replace_cons_neg hp r hm] at hpre
          cases i with
          | zero =>
            rw [List.drop_zero] at hpre
            have hhead := head_match_transfer hp hq hcross hpre
            rcases hH with hqp | hno
            · subst hqp
              exact hm hhead
            · have := hno 0
              rw [List.drop_zero] at this
              exact this hhead
          | succ j =>
            rw [List.drop_succ_cons] at hpre
            refine ih s' (by omega) ?_ j hpre
            rcases hH with hqp | hno
            · exact Or.inl hqp
            · refine Or.inr fun i' => ?_
              have := hno (i' + 1)
              rwa [List.drop_succ_cons] at this
  exact fun s => H s.length s le_rfl

/-- The fixed 17 characters before the data URI in the mask replacement. -/
def maskPre : List Char := "maskImage: ".data ++ urlOpen

/-- The fixed 23 characters before the data URI in the webkit replacement. -/
def webkitPre : List Char := "WebkitMaskImage: ".data ++ urlOpen

theorem replacement_mask_parts (u : List Char) :
    replacement_mask u = maskPre ++ (u ++ tail3) := by
  simp [replacement_mask, maskPre, List.append_assoc]

theorem replacement_webkit_parts (u : List Char) :
    replacement_webkit u = webkitPre ++ (u ++ tail3) := by
  simp [replacement_webkit, webkitPre, List.append_assoc]

theorem maskPre_length : maskPre.length = 17 := by decide

theorem webkitPre_length : webkitPre.length = 23 := by decide

theorem tail3_length : tail3.length = 3 := by decide

theorem three_part_length (pre w : List Char) :
    (pre ++ (data_uri w ++ tail3)).length = pre.length + (22 + w.length) + 3 := by
  rw [List.length_append, List.length_append, data_uri_length, tail3_length]
  omega

theorem mem_of_some_getElem {α : Type _} {l : List α} {n : Nat} {a : α}
    (h : l[n]? = some a) : a ∈ l := by
  obtain ⟨hlt, hget⟩ := List.getElem?_eq_some.mp h
  exact hget ▸ List.getElem_mem hlt

theorem getElem?_of_prefix {α : Type _} {p s : List α} (h : p <+: s) {j : Nat}
    (hj : j < p.length) : s[j]? = p[j]? := by
  have hp := List.prefix_iff_eq_take.mp h
  conv_rhs => rw [hp]
  rw [List.getElem?_take, if_pos hj]

theorem getElem?_drop_of_prefix {α : Type _} {p s : List α} {i : Nat}
    (h : p <+: s.drop i) {j : Nat} (hj : j < p.length) : s[i + j]? = p[j]? := by
  rw [← List.getElem?_drop]
  exact getElem?_of_prefix h hj

theorem quote_not_mem_data_uri {w : List Char} (hw : quoteC ∉ w) :
    quoteC ∉ data_uri w := by
  intro h
  rcases List.mem_append.mp h with h | h
  · revert h
    decide
  · exact hw h

theorem quote_landing {pre : List Char} {qa : Nat}
    (hpre : ∀ j : Fin pre.length, pre.get j = quoteC → j.val = qa)
    {u : List Char} (hu : quoteC ∉ u) {j : Nat}
    (h : (pre ++ (u ++ tail3))[j]? = some quoteC) :
    j = qa ∨ j = pre.length + u.length + 2 := by
  rw [List.getElem?_append] at h
  by_cases hj : j < pre.length
  · rw [if_pos hj] at h
    obtain ⟨hlt, hget⟩ := List.getElem?_eq_some.mp h
    exact Or.inl (hpre ⟨j, hlt⟩ (by rw [List.get_eq_getElem]; exact hget))
  · rw [if_neg hj] at h
    push_neg at hj
    rw [List.getElem?_append] at h
    by_cases hj2 : j - pre.length < u.length
    · rw [if_pos hj2] at h
      exact absurd (mem_of_some_getElem h) hu
    · rw [if_neg hj2] at h
      push_neg at hj2
      have h3 : j - pre.length - u.length < 3 := by
        by_contra hge
        push_neg at hge
        have hnone : tail3.length ≤ j - pre.length - u.length := by
          rw [tail3_length]
          omega
        rw [List.getElem?_eq_none hnone] at h
        exact Option.noConfusion h
      have hcase : j - pre.length - u.length = 0 ∨ j - pre.length - u.length = 1 ∨
          j - pre.length - u.length = 2 := by omega
      rcases hcase with h0 | h1 | h2
      · rw [h0] at h
        exact absurd h (by decide)
      · rw [h1] at h
        exact absurd h (by decide)
      · exact Or.inr (by omega)

theorem landing_pair {q pre : List Char} {qa : Nat}
    (hpre : ∀ j : Fin pre.length, pre.get j = quoteC → j.val = qa)
    {w : List Char} (hw : quoteC ∉ w) {i a : Nat} (ha : a < q.length)
    (haq : q[a]? = some quoteC)
    (hi : q <+: (pre ++ (data_uri w ++ tail3)).drop i) :
    i + a = qa ∨ i + a = pre.length + (22 + w.length) + 2 := by
  have h1 := getElem?_drop_of_prefix hi ha
  rw [haq] at h1
  have := quote_landing hpre (quote_not_mem_data_uri hw) h1
  rwa [data_uri_length] at this

theorem maskPre_quotes : ∀ j : Fin maskPre.length, maskPre.get j = quoteC → j.val = 11 := by
  decide

theorem webkitPre_quotes :
    ∀ j : Fin webkitPre.length, webkitPre.get j = quoteC → j.val = 17 := by
  decide

theorem tm_not_infix_mask_part {w : List Char} (hw : quoteC ∉ w) :
    ¬ target_mask <:+: (maskPre ++ (data_uri w ++ tail3)) := by
  rw [infix_iff_drop]
  rintro ⟨i, hi⟩
  have hA := landing_pair maskPre_quotes hw
    (show 11 < target_mask.length by rw [target_mask_length]; omega) (by decide) hi
  have hB := landing_pair maskPre_quotes hw
    (show 40 < target_mask.length by rw [target_mask_length]; omega) (by decide) hi
  have hL := hi.length_le
  rw [List.length_drop, three_part_length, target_mask_length] at hL
  rw [maskPre_length] at hA hB
  omega

theorem tm_not_infix_webkit_part {w : List Char} (hw : quoteC ∉ w) :
    ¬ target_mask <:+: (webkitPre ++ (data_uri w ++ tail3)) := by
  rw [infix_iff_drop]
  rintro ⟨i, hi⟩
  have hA := landing_pair webkitPre_quotes hw
    (show 11 < target_mask.length by rw [target_mask_length]; omega) (by decide) hi
  have hB := landing_pair webkitPre_quotes hw
    (show 40 < target_mask.length by rw [target_mask_length]; omega) (by decide) hi
  have hL := hi.length_le
  rw [List.length_drop, three_part_length, target_mask_length] at hL
  rw [webkitPre_length] at hA hB
  omega

theorem twk_not_infix_mask_part {w : List Char} (hw : quoteC ∉ w) :
    ¬ target_webkit <:+: (maskPre ++ (data_uri w ++ tail3)) := by
  rw [infix_iff_drop]
  rintro ⟨i, hi⟩
  have hA := landing_pair maskPre_quotes hw
    (show 17 < target_webkit.length by rw [target_webkit_length]; omega) (by decide) hi
  have hB := landing_pair maskPre_quotes hw
    (show 46 < target_webkit.length by rw [target_webkit_length]; omega) (by decide) hi
  have hL := hi.length_le
  rw [List.length_drop, three_part_length, target_webkit_length] at hL
  rw [maskPre_length] at hA hB
  omega

theorem twk_not_infix_webkit_part {w : List Char} (hw : quoteC ∉ w) :
    ¬ target_webkit <:+: (webkitPre ++ (data_uri w ++ tail3)) := by
  rw [infix_iff_drop]
  rintro ⟨i, hi⟩
  have hA := landing_pair webkitPre_quotes hw
    (show 17 < target_webkit.length by rw [target_webkit_length]; omega) (by decide) hi
  have hB := landing_pair webkitPre_quotes hw
    (show 46 < target_webkit.length by rw [target_webkit_length]; omega) (by decide) hi
  have hL := hi.length_le
  rw [List.length_drop, three_part_length, target_webkit_length] at hL
  rw [webkitPre_length] at hA hB
  omega

theorem drop_at_tail (pre w : List Char) (j : Nat) :
    (pre ++ (data_uri w ++ tail3)).drop (pre.length + (22 + w.length) + j) =
      tail3.drop j := by
  rw [drop_full_append _ _ (by omega)]
  have h1 : pre.length + (22 + w.length) + j - pre.length = 22 + w.length + j := by omega
  rw [h1, drop_full_append _ _ (by rw [data_uri_length]; omega)]
  congr 1
  rw [data_uri_length]
  omega

theorem no_tail_take {q : List Char} (pre w : List Char)
    (h3 : ∀ k, k < 4 → 0 < k → tail3.drop (3 - k) ≠ q.take k)
    (ht : ∀ m, m < q.length → 0 < m → m + 3 < q.length → (q.drop m).take 3 ≠ tail3) :
    ∀ k, k < q.length → 0 < k → k ≤ (pre ++ (data_uri w ++ tail3)).length →
      (pre ++ (data_uri w ++ tail3)).drop
        ((pre ++ (data_uri w ++ tail3)).length - k) ≠ q.take k := by
  intro k hk h0 hkz heq
  have hzlen := three_part_length pre w
  rcases Nat.lt_or_ge k 4 with hk4 | hk4
  · have hix : (pre ++ (data_uri w ++ tail3)).length - k =
        pre.length + (22 + w.length) + (3 - k) := by
      rw [hzlen]
      omega
    rw [hix, drop_at_tail] at heq
    exact h3 k hk4 h0 heq
  · have heq' := congrArg (List.drop (k - 3)) heq
    have hix : (pre ++ (data_uri w ++ tail3)).length - k + (k - 3) =
        pre.length + (22 + w.length) + 0 := by
      rw [hzlen]
      omega
    rw [List.drop_drop, hix, drop_at_tail, List.drop_zero, List.drop_take] at heq'
    have h33 : k - (k - 3) = 3 := by omega
    rw [h33] at heq'
    exact ht (k - 3) (by omega) (by omega) (by omega) heq'.symm

theorem no_dropq_take {q : List Char} (pre w : List Char)
    (h1 : ∀ k, k < q.length → 0 < k → q.length - k ≤ pre.length →
      q.drop k ≠ pre.take (q.length - k))
    (h2 : ∀ k, k < q.length → 0 < k → pre.length ≤ q.length - k →
      (q.drop k).take pre.length ≠ pre) :
    ∀ k, k < q.length → 0 < k → q.length - k ≤ (pre ++ (data_uri w ++ tail3)).length →
      q.drop k ≠ (pre ++ (data_uri w ++ tail3)).take (q.length - k) := by
  intro k hk h0 hkz heq
  rcases le_or_lt (q.length - k) pre.length with hm | hm
  · have hto : (pre ++ (data_uri w ++ tail3)).take (q.length - k) =
        pre.take (q.length - k) := by
      rw [List.take_append_eq_append_take, Nat.sub_eq_zero_of_le hm, List.take_zero,
        List.append_nil]
    rw [hto] at heq
    exact h1 k hk h0 hm heq
  · have hpz : (q.drop k).take pre.length = pre := by
      rw [heq, List.take_take, Nat.min_eq_left (le_of_lt hm), List.take_left]
    exact h2 k hk h0 (le_of_lt hm) hpz

theorem z_longer_not_infix {q : List Char} (pre w : List Char)
    (h : q.length < pre.length + (22 + w.length) + 3) :
    ¬ (pre ++ (data_uri w ++ tail3)) <:+: q := by
  intro hinf
  have := hinf.length_le
  rw [three_part_length] at this
  omega

theorem z_not_infix_q_content {q : List Char} (pre w : List Char)
    (hni : ¬ pre <:+: q) : ¬ (pre ++ (data_uri w ++ tail3)) <:+: q :=
  fun h => hni ((List.prefix_append pre _).isInfix.trans h)

theorem tm_tail_take : ∀ k, k < 4 → 0 < k → tail3.drop (3 - k) ≠ target_mask.take k := by
  decide

theorem twk_tail_take : ∀ k, k < 4 → 0 < k → tail3.drop (3 - k) ≠ target_webkit.take k := by
  decide

theorem tm_tail_mid : ∀ m, m < target_mask.length → 0 < m →
    m + 3 < target_mask.length → (target_mask.drop m).take 3 ≠ tail3 := by
  decide

theorem twk_tail_mid : ∀ m, m < target_webkit.length → 0 < m →
    m + 3 < target_webkit.length → (target_webkit.drop m).take 3 ≠ tail3 := by
  decide

theorem tm_mask_h1 : ∀ k, k < target_mask.length → 0 < k →
    target_mask.length - k ≤ maskPre.length →
    target_mask.drop k ≠ maskPre.take (target_mask.length - k) := by
  decide

theorem tm_mask_h2 : ∀ k, k < target_mask.length → 0 < k →
    maskPre.length ≤ target_mask.length - k →
    (target_mask.drop k).take maskPre.length ≠ maskPre := by
  decide

theorem tm_webkit_h1 : ∀ k, k < target_mask.length → 0 < k →
    target_mask.length - k ≤ webkitPre.length →
    target_mask.drop k ≠ webkitPre.take (target_mask.length - k) := by
  decide

theorem tm_webkit_h2 : ∀ k, k < target_mask.length → 0 < k →
    webkitPre.length ≤ target_mask.length - k →
    (target_mask.drop k).take webkitPre.length ≠ webkitPre := by
  decide

theorem twk_mask_h1 : ∀ k, k < target_webkit.length → 0 < k →
    target_webkit.length - k ≤ maskPre.length →
    target_webkit.drop k ≠ maskPre.take (target_webkit.length - k) := by
  decide

theorem twk_mask_h2 : ∀ k, k < target_webkit.length → 0 < k →
    maskPre.length ≤ target_webkit.length - k →
    (target_webkit.drop k).take maskPre.length ≠ maskPre := by
  decide

theorem twk_webkit_h1 : ∀ k, k < target_webkit.length → 0 < k →
    target_webkit.length - k ≤ webkitPre.length →
    target_webkit.drop k ≠ webkitPre.take (target_webkit.length - k) := by
  decide

theorem twk_webkit_h2 : ∀ k, k < target_webkit.length → 0 < k →
    webkitPre.length ≤ target_webkit.length - k →
    (target_webkit.drop k).take webkitPre.length ≠ webkitPre := by
  decide

theorem maskPre_not_infix_twk : ¬ maskPre <:+: target_webkit := by decide

theorem webkitPre_not_infix_tm : ¬ webkitPre <:+: target_mask := by decide

theorem noCross_tm_rm {w : List Char} (hw : quoteC ∉ w) :
    NoCross target_mask (replacement_mask (data_uri w)) := by
  rw [replacement_mask_parts]
  exact ⟨tm_not_infix_mask_part hw,
    no_tail_take maskPre w tm_tail_take tm_tail_mid,
    no_dropq_take maskPre w tm_mask_h1 tm_mask_h2,
    z_longer_not_infix maskPre w (by rw [target_mask_length, maskPre_length]; omega)⟩

theorem noCross_twk_rm {w : List Char} (hw : quoteC ∉ w) :
    NoCross target_webkit (replacement_mask (data_uri w)) := by
  rw [replacement_mask_parts]
  exact ⟨twk_not_infix_mask_part hw,
    no_tail_take maskPre w twk_tail_take twk_tail_mid,
    no_dropq_take maskPre w twk_mask_h1 twk_mask_h2,
    z_not_infix_q_content maskPre w maskPre_not_infix_twk⟩

theorem noCross_tm_rwk {w : List Char} (hw : quoteC ∉ w) :
    NoCross target_mask (replacement_webkit (data_uri w)) := by
  rw [replacement_webkit_parts]
  exact ⟨tm_not_infix_webkit_part hw,
    no_tail_take webkitPre w tm_tail_take tm_tail_mid,
    no_dropq_take webkitPre w tm_webkit_h1 tm_webkit_h2,
    z_not_infix_q_content webkitPre w webkitPre_not_infix_tm⟩

theorem noCross_twk_rwk {w : List Char} (hw : quoteC ∉ w) :
    NoCross target_webkit (replacement_webkit (data_uri w)) := by
  rw [replacement_webkit_parts]
  exact ⟨twk_not_infix_webkit_part hw,
    no_tail_take webkitPre w twk_tail_take twk_tail_mid,
    no_dropq_take webkitPre w twk_webkit_h1 twk_webkit_h2,
    z_longer_not_infix webkitPre w (by rw [target_webkit_length, webkitPre_length]; omega)⟩

theorem noCross_tm_twk : NoCross target_mask target_webkit := by
  unfold NoCross
  refine ⟨by decide, by decide, by decide, by decide⟩

theorem noCross_twk_tm : NoCross target_webkit target_mask := by
  unfold NoCross
  refine ⟨by decide, by decide, by decide, by decide⟩

/-- Claim C2, amended: for payloads without a single-quote character (any
base64 text qualifies) the two literal replacements are independent: they
commute on every source text. -/
theorem claim_C2_amended (w s : List Char) (hw : quoteC ∉ w) :
    replace target_webkit (replacement_webkit (data_uri w))
        (replace target_mask (replacement_mask (data_uri w)) s) =
      replace target_mask (replacement_mask (data_uri w))
        (replace target_webkit (replacement_webkit (data_uri w)) s) :=
  replace_comm target_mask_ne_nil target_webkit_ne_nil (noCross_twk_rm hw)
    noCross_tm_twk (noCross_tm_rwk hw) noCross_twk_tm s

theorem claim_C2_amended_witness :
    quoteC ∉ "QUJDRA==".data ∧
      replace target_webkit (replacement_webkit (data_uri "QUJDRA==".data))
          (replace target_mask (replacement_mask (data_uri "QUJDRA==".data))
            (target_mask ++ target_webkit)) =
        replace target_mask (replacement_mask (data_uri "QUJDRA==".data))
          (replace target_webkit (replacement_webkit (data_uri "QUJDRA==".data))
            (target_mask ++ target_webkit)) :=
  ⟨by decide, claim_C2_amended "QUJDRA==".data (target_mask ++ target_webkit) (by decide)⟩

theorem new_content_no_targets {w : List Char} (hw : quoteC ∉ w) (s : List Char) :
    (∀ i, ¬ target_mask <+: (new_content (data_uri w) s).drop i) ∧
      (∀ i, ¬ target_webkit <+: (new_content (data_uri w) s).drop i) := by
  unfold new_content
  constructor
  · apply replace_no_new_occ target_webkit_ne_nil target_mask_ne_nil (noCross_tm_rwk hw)
    exact Or.inr (replace_no_new_occ target_mask_ne_nil target_mask_ne_nil
      (noCross_tm_rm hw) s (Or.inl rfl))
  · exact replace_no_new_occ target_webkit_ne_nil target_webkit_ne_nil
      (noCross_twk_rwk hw) _ (Or.inl rfl)

/-- Claim C3, amended: for payloads without a single-quote character (any
base64 text qualifies) the substitution is idempotent: its output contains
no occurrence of either target, so a second application changes nothing. -/
theorem claim_C3_amended (w s : List Char) (hw : quoteC ∉ w) :
    new_content (data_uri w) (new_content (data_uri w) s) =
      new_content (data_uri w) s := by
  obtain ⟨h1, h2⟩ := new_content_no_targets hw s
  exact (new_content_eq_self_iff w _).mpr
    ⟨(not_infix_iff_drop _ _).mpr h1, (not_infix_iff_drop _ _).mpr h2⟩

theorem claim_C3_amended_witness :
    quoteC ∉ "AAAA".data ∧
      new_content (data_uri "AAAA".data)
          (new_content (data_uri "AAAA".data) (target_mask ++ target_webkit)) =
        new_content (data_uri "AAAA".data) (target_mask ++ target_webkit) :=
  ⟨by decide, claim_C3_amended "AAAA".data (target_mask ++ target_webkit) (by decide)⟩

theorem three_part_getElem_pre (pre u : List Char) {j : Nat} (hj : j < pre.length) :
    (pre ++ (u ++ tail3))[j]? = pre[j]? := by
  rw [List.getElem?_append]
  rw [if_pos hj]

theorem three_part_getElem_last (pre w : List Char) :
    (pre ++ (data_uri w ++ tail3))[pre.length + (22 + w.length) + 2]? = some quoteC := by
  rw [List.getElem?_append_right (by omega)]
  rw [List.getElem?_append_right (by rw [data_uri_length]; omega)]
  have hix : pre.length + (22 + w.length) + 2 - pre.length - (data_uri w).length = 2 := by
    rw [data_uri_length]
    omega
  rw [hix]
  decide

theorem three_part_take_pre (pre u : List Char) {k : Nat} (hk : k ≤ pre.length) :
    (pre ++ (u ++ tail3)).take k = pre.take k := by
  rw [List.take_append_eq_append_take, Nat.sub_eq_zero_of_le hk, List.take_zero,
    List.append_nil]

theorem three_part_drop_small (pre w : List Char) {m : Nat} (hm : m ≤ 3) :
    (pre ++ (data_uri w ++ tail3)).drop
        ((pre ++ (data_uri w ++ tail3)).length - m) = tail3.drop (3 - m) := by
  have hix : (pre ++ (data_uri w ++ tail3)).length - m =
      pre.length + (22 + w.length) + (3 - m) := by
    rw [three_part_length]
    omega
  rw [hix, drop_at_tail]

theorem no_triple {pre : List Char} {qa : Nat}
    (hq : ∀ j : Fin pre.length, pre.get j = quoteC → j.val = qa)
    (hqa2 : pre[qa - 2]? ≠ some dquoteC) (hqalt : qa < pre.length)
    {w : List Char} (hw : quoteC ∉ w) :
    ∀ m, 0 < m → m + 3 < (pre ++ (data_uri w ++ tail3)).length →
      ((pre ++ (data_uri w ++ tail3)).drop m).take 3 ≠ tail3 := by
  intro m h0 hm heq
  have hq2 : (pre ++ (data_uri w ++ tail3))[m + 2]? = some quoteC := by
    have h2 := congrArg (fun l => l[2]?) heq
    simp only at h2
    rw [List.getElem?_take, if_pos (by omega), List.getElem?_drop] at h2
    rw [h2]
    decide
  have hland := quote_landing hq (quote_not_mem_data_uri hw) hq2
  rcases hland with hcase | hcase
  · have hq0 : (pre ++ (data_uri w ++ tail3))[m]? = some dquoteC := by
      have h0' := congrArg (fun l => l[0]?) heq
      simp only at h0'
      rw [List.getElem?_take, if_pos (by omega), List.getElem?_drop, Nat.add_zero] at h0'
      rw [h0']
      decide
    rw [three_part_getElem_pre pre _ (by omega)] at hq0
    rw [show m = qa - 2 from by omega] at hq0
    exact hqa2 hq0
  · rw [three_part_length] at hm
    rw [data_uri_length] at hcase
    omega

theorem maskPre_q11 : maskPre[11]? = some quoteC := by decide

theorem webkitPre_q17 : webkitPre[17]? = some quoteC := by decide

theorem maskPre_no_dq9 : maskPre[9]? ≠ some dquoteC := by decide

theorem webkitPre_no_dq15 : webkitPre[15]? ≠ some dquoteC := by decide

theorem webkitPre6_ne_maskPre0 : webkitPre[6]? ≠ maskPre[0]? := by decide

theorem tail_ne_maskPre_take : ∀ k, k < 4 → 0 < k → tail3.drop (3 - k) ≠ maskPre.take k := by
  decide

theorem tail_ne_webkitPre_take :
    ∀ k, k < 4 → 0 < k → tail3.drop (3 - k) ≠ webkitPre.take k := by
  decide

theorem rm_no_triple {w : List Char} (hw : quoteC ∉ w) :
    ∀ m, 0 < m → m + 3 < (maskPre ++ (data_uri w ++ tail3)).length →
      ((maskPre ++ (data_uri w ++ tail3)).drop m).take 3 ≠ tail3 :=
  no_triple maskPre_quotes (by exact maskPre_no_dq9) (by rw [maskPre_length]; omega) hw

theorem rwk_no_triple {w : List Char} (hw : quoteC ∉ w) :
    ∀ m, 0 < m → m + 3 < (webkitPre ++ (data_uri w ++ tail3)).length →
      ((webkitPre ++ (data_uri w ++ tail3)).drop m).take 3 ≠ tail3 :=
  no_triple webkitPre_quotes (by exact webkitPre_no_dq15) (by rw [webkitPre_length]; omega) hw

theorem rm_tail_take {w : List Char} :
    ∀ k, k < 4 → 0 < k →
      tail3.drop (3 - k) ≠ (maskPre ++ (data_uri w ++ tail3)).take k := by
  intro k hk h0
  rw [three_part_take_pre _ _ (by rw [maskPre_length]; omega)]
  exact tail_ne_maskPre_take k hk h0

theorem rwk_tail_take {w : List Char} :
    ∀ k, k < 4 → 0 < k →
      tail3.drop (3 - k) ≠ (webkitPre ++ (data_uri w ++ tail3)).take k := by
  intro k hk h0
  rw [three_part_take_pre _ _ (by rw [webkitPre_length]; omega)]
  exact tail_ne_webkitPre_take k hk h0

theorem rm_borderFree_parts {w : List Char} (hw : quoteC ∉ w) :
    BorderFree (maskPre ++ (data_uri w ++ tail3)) := by
  intro k hk h0 heq
  exact no_tail_take maskPre w rm_tail_take
    (fun m _ h0' h3' => rm_no_triple hw m h0' h3') k hk h0 (le_of_lt hk) heq.symm

theorem rwk_borderFree_parts {w : List Char} (hw : quoteC ∉ w) :
    BorderFree (webkitPre ++ (data_uri w ++ tail3)) := by
  intro k hk h0 heq
  exact no_tail_take webkitPre w rwk_tail_take
    (fun m _ h0' h3' => rwk_no_triple hw m h0' h3') k hk h0 (le_of_lt hk) heq.symm

theorem rm_not_infix_rwk {w : List Char} (hw : quoteC ∉ w) :
    ¬ (maskPre ++ (data_uri w ++ tail3)) <:+: (webkitPre ++ (data_uri w ++ tail3)) := by
  rw [infix_iff_drop]
  rintro ⟨i, hi⟩
  have hq11 : (maskPre ++ (data_uri w ++ tail3))[11]? = some quoteC := by
    rw [three_part_getElem_pre _ _ (by rw [maskPre_length]; omega)]
    exact maskPre_q11
  have hA := landing_pair webkitPre_quotes hw
    (show 11 < (maskPre ++ (data_uri w ++ tail3)).length by
      rw [three_part_length]; omega)
    hq11 hi
  have hB := landing_pair webkitPre_quotes hw
    (show maskPre.length + (22 + w.length) + 2 <
        (maskPre ++ (data_uri w ++ tail3)).length by
      rw [three_part_length]; omega)
    (three_part_getElem_last maskPre w) hi
  have hL := hi.length_le
  rw [List.length_drop, three_part_length, three_part_length] at hL
  rw [maskPre_length] at hB hL
  rw [webkitPre_length] at hA hB hL
  have hi6 : i = 6 := by omega
  subst hi6
  have hc := getElem?_drop_of_prefix hi
    (show 0 < (maskPre ++ (data_uri w ++ tail3)).length by rw [three_part_length]; omega)
  rw [Nat.add_zero] at hc
  rw [three_part_getElem_pre _ _ (by rw [webkitPre_length]; omega)] at hc
  rw [three_part_getElem_pre _ _ (by rw [maskPre_length]; omega)] at hc
  exact webkitPre6_ne_maskPre0 hc

theorem three_part_drop_ne_take_lt (preq prez : List Char) {w : List Char}
    (hz3 : 3 ≤ prez.length)
    (hsmall : ∀ m, m < 4 → 0 < m → tail3.drop (3 - m) ≠ prez.take m)
    (htriple : ∀ m, 0 < m → m + 3 < (prez ++ (data_uri w ++ tail3)).length →
      ((prez ++ (data_uri w ++ tail3)).drop m).take 3 ≠ tail3) :
    ∀ k, k < (preq ++ (data_uri w ++ tail3)).length → 0 < k →
      (preq ++ (data_uri w ++ tail3)).length - k <
        (prez ++ (data_uri w ++ tail3)).length →
      (preq ++ (data_uri w ++ tail3)).drop k ≠
        (prez ++ (data_uri w ++ tail3)).take
          ((preq ++ (data_uri w ++ tail3)).length - k) := by
  intro k hk h0 hmlt heq
  have hql := three_part_length preq w
  have hzl := three_part_length prez w
  rcases le_or_lt ((preq ++ (data_uri w ++ tail3)).length - k) 3 with hm | hm
  · have hidx : (preq ++ (data_uri w ++ tail3)).length -
        ((preq ++ (data_uri w ++ tail3)).length - k) = k := by omega
    have hqdrop := three_part_drop_small preq w hm
    rw [hidx] at hqdrop
    rw [hqdrop, three_part_take_pre _ _ (by omega)] at heq
    exact hsmall _ (by omega) (by omega) heq
  · have heq' := congrArg
      (List.drop ((preq ++ (data_uri w ++ tail3)).length - k - 3)) heq
    rw [List.drop_drop] at heq'
    have hixq : k + ((preq ++ (data_uri w ++ tail3)).length - k - 3) =
        preq.length + (22 + w.length) + 0 := by
      rw [hql] at hk ⊢
      omega
    rw [hixq, drop_at_tail, List.drop_zero, List.drop_take] at heq'
    have h33 : (preq ++ (data_uri w ++ tail3)).length - k -
        ((preq ++ (data_uri w ++ tail3)).length - k - 3) = 3 := by omega
    rw [h33] at heq'
    exact htriple ((preq ++ (data_uri w ++ tail3)).length - k - 3) (by omega)
      (by omega) heq'.symm

theorem noCross_rm_rwk {w : List Char} (hw : quoteC ∉ w) :
    NoCross (replacement_mask (data_uri w)) (replacement_webkit (data_uri w)) := by
  rw [replacement_mask_parts, replacement_webkit_parts]
  refine ⟨rm_not_infix_rwk hw, ?_, ?_, ?_⟩
  · exact no_tail_take webkitPre w rm_tail_take
      (fun m _ h0 h3 => rm_no_triple hw m h0 h3)
  · intro k hk h0 hkz
    refine three_part_drop_ne_take_lt maskPre webkitPre
      (by rw [webkitPre_length]; omega) tail_ne_webkitPre_take
      (rwk_no_triple hw) k hk h0 ?_
    rw [three_part_length, three_part_length, maskPre_length, webkitPre_length] at *
    omega
  · intro hinf
    have := hinf.length_le
    rw [three_part_length, three_part_length, maskPre_length, webkitPre_length] at this
    omega

theorem noCross_rwk_rm {w : List Char} (hw : quoteC ∉ w) :
    NoCross (replacement_webkit (data_uri w)) (replacement_mask (data_uri w)) := by
  rw [replacement_mask_parts, replacement_webkit_parts]
  refine ⟨?_, ?_, ?_, rm_not_infix_rwk hw⟩
  · intro hinf
    have := hinf.length_le
    rw [three_part_length, three_part_length, maskPre_length, webkitPre_length] at this
    omega
  · exact no_tail_take maskPre w rwk_tail_take
      (fun m _ h0 h3 => rwk_no_triple hw m h0 h3)
  · intro k hk h0 hkz
    rcases lt_or_eq_of_le hkz with hlt | heqz
    · exact three_part_drop_ne_take_lt webkitPre maskPre
        (by rw [maskPre_length]; omega) tail_ne_maskPre_take
        (rm_no_triple hw) k hk h0 hlt
    · intro heq
      rw [heqz, List.take_length] at heq
      have hk6 : k = 6 := by
        rw [three_part_length, three_part_length, maskPre_length, webkitPre_length]
          at heqz
        omega
      subst hk6
      have hc := congrArg (fun l => l[0]?) heq
      simp only at hc
      rw [List.getElem?_drop, Nat.add_zero] at hc
      rw [three_part_getElem_pre _ _ (by rw [webkitPre_length]; omega)] at hc
      rw [three_part_getElem_pre _ _ (by rw [maskPre_length]; omega)] at hc
      exact webkitPre6_ne_maskPre0 hc

theorem countOcc_append_left_none [DecidableEq α] {q : List α} :
    ∀ (a t : List α), (∀ i, i < a.length → ¬ q <+: (a ++ t).drop i) →
      countOcc q (a ++ t) = countOcc q t := by
  intro a
  induction a with
  | nil => intro t _; rw [List.nil_append]
  | cons c a' ih =>
    intro t h
    rw [List.cons_append, countOcc]
    have h0 : ¬ q <+: (c :: (a' ++ t)) := by
      have := h 0 (by simp)
      simpa using this
    rw [if_neg h0, Nat.zero_add]
    exact ih t (fun i hi => by
      have := h (i + 1) (by simp only [List.length_cons]; omega)
      simpa using this)

theorem prefix_through_block {α : Type _} {q z : List α} (hcross : NoCross q z)
    (x y : List α) (h : q <+: x ++ (z ++ y)) : q <+: x := by
  rcases prefix_append_cases h with hx | hx
  · exact hx
  · have hlen := hx.length_le
    rcases Nat.eq_or_lt_of_le hlen with heq | hlt
    · have hxq : x = q := hx.eq_of_length heq
      rw [hxq]
    · exfalso
      have hxq := List.prefix_iff_eq_take.mp h
      have hdropq : q.drop x.length <+: z ++ y := by
        rw [hxq, List.drop_take, List.drop_left]
        exact List.take_prefix _ _
      rcases prefix_append_cases hdropq with hz | hz
      · by_cases hx0 : x.length = 0
        · rw [hx0, List.drop_zero] at hz
          exact hcross.1 hz.isInfix
        · have htk := List.prefix_iff_eq_take.mp hz
          rw [List.length_drop] at htk
          refine hcross.2.2.1 x.length (by omega) (by omega) ?_ htk
          have := hz.length_le
          rw [List.length_drop] at this
          omega
      · exact hcross.2.2.2 ((infix_iff_drop _ _).mpr ⟨x.length, hz⟩)

theorem countOcc_append_block [DecidableEq α] {q z : List α} (hcross : NoCross q z) :
    ∀ x y, countOcc q (x ++ (z ++ y)) = countOcc q x + countOcc q y := by
  have hq : q ≠ [] := fun h => hcross.1 (h ▸ List.nil_infix)
  intro x
  induction x with
  | nil =>
    intro y
    rw [List.nil_append, countOcc_nil hq, Nat.zero_add]
    exact countOcc_append_left_none z y (fun i hi => hcross.no_match_within y i hi)
  | cons c x' ih =>
    intro y
    rw [List.cons_append]
    have hiff : (q <+: c :: (x' ++ (z ++ y))) ↔ (q <+: c :: x') := by
      constructor
      · intro h
        rw [← List.cons_append] at h
        exact prefix_through_block hcross (c :: x') y h
      · intro h
        have h2 := h.trans (List.prefix_append (c :: x') (z ++ y))
        rw [List.cons_append] at h2
        exact h2
    rw [countOcc, show countOcc q (c :: x') = (if q <+: (c :: x') then 1 else 0) +
      countOcc q x' from rfl]
    by_cases hm : q <+: (c :: x')
    · rw [if_pos (hiff.mpr hm), if_pos hm, ih y]
      omega
    · rw [if_neg (fun h => hm (hiff.mp h)), if_neg hm, ih y]
      omega

theorem prefix_through_pattern {α : Type _} {q : List α} (hb : BorderFree q)
    (x y : List α) (hx : x ≠ []) (h : q <+: x ++ (q ++ y)) : q <+: x := by
  rcases prefix_append_cases h with h1 | h1
  · exact h1
  · have hlen := h1.length_le
    rcases Nat.eq_or_lt_of_le hlen with heq | hlt
    · have hxq : x = q := h1.eq_of_length heq
      rw [hxq]
    · exfalso
      have hx0 : 0 < x.length := List.length_pos.mpr hx
      have hxq := List.prefix_iff_eq_take.mp h
      have hdropq : q.drop x.length <+: q ++ y := by
        have hq' : q.drop x.length = ((x ++ (q ++ y)).take q.length).drop x.length := by
          conv_lhs => rw [hxq]
        rw [hq', List.drop_take, List.drop_left]
        exact List.take_prefix _ _
      rcases prefix_append_cases hdropq with h2 | h2
      · have htk := List.prefix_iff_eq_take.mp h2
        rw [List.length_drop] at htk
        have hix : q.length - (q.length - x.length) = x.length := by omega
        exact hb (q.length - x.length) (by omega) (by omega) (by rw [hix]; exact htk.symm)
      · have := h2.length_le
        rw [List.length_drop] at this
        omega

theorem countOcc_sandwich [DecidableEq α] {q : List α} (hq : q ≠ [])
    (hb : BorderFree q) :
    ∀ x y, countOcc q (x ++ (q ++ y)) = countOcc q x + countOcc q y + 1 := by
  intro x
  induction x with
  | nil =>
    intro y
    rw [List.nil_append, countOcc_pattern_head hq hb, countOcc_nil hq]
    omega
  | cons c x' ih =>
    intro y
    rw [List.cons_append]
    have hiff : (q <+: c :: (x' ++ (q ++ y))) ↔ (q <+: c :: x') := by
      constructor
      · intro h
        rw [← List.cons_append] at h
        exact prefix_through_pattern hb (c :: x') y (by simp) h
      · intro h
        have h2 := h.trans (List.prefix_append (c :: x') (q ++ y))
        rw [List.cons_append] at h2
        exact h2
    rw [countOcc, show countOcc q (c :: x') = (if q <+: (c :: x') then 1 else 0) +
      countOcc q x' from rfl]
    by_cases hm : q <+: (c :: x')
    · rw [if_pos (hiff.mpr hm), if_pos hm, ih y]
      omega
    · rw [if_neg (fun h => hm (hiff.mp h)), if_neg hm, ih y]
      omega

theorem countOcc_zero_of_infix [DecidableEq α] {q s t : List α} (hq : q ≠ [])
    (hts : t <:+: s) (hs : ¬ q <:+: s) : countOcc q t = 0 :=
  (countOcc_eq_zero_iff hq t).mpr (fun h => hs (h.trans hts))

theorem replace_single_match [DecidableEq α] {p r : List α} (hp : p ≠ [])
    (hb : BorderFree p) :
    ∀ s, countOcc p s = 1 →
      ∃ x y, s = x ++ (p ++ y) ∧ replace p r s = x ++ (r ++ y) ∧
        countOcc p x = 0 ∧ countOcc p y = 0 := by
  intro s
  induction s with
  | nil =>
    intro h
    rw [countOcc_nil hp] at h
    exact absurd h (by omega)
  | cons c s' ih =>
    intro h
    by_cases hm : p <+: (c :: s')
    · have hsplit := List.prefix_iff_eq_append.mp hm
      have hcnt : countOcc p (c :: s') = 1 + countOcc p ((c :: s').drop p.length) := by
        conv_lhs => rw [← hsplit]
        exact countOcc_pattern_head hp hb _
      have ht0 : countOcc p ((c :: s').drop p.length) = 0 := by omega
      refine ⟨[], (c :: s').drop p.length, by rw [List.nil_append, hsplit], ?_,
        countOcc_nil hp, ht0⟩
      rw [replace_cons_pos hp r hm, List.nil_append,
        replace_of_no_occ hp r ((countOcc_eq_zero_iff hp _).mp ht0)]
    · rw [countOcc, if_neg hm, Nat.zero_add] at h
      obtain ⟨x, y, hxy, hrep, hx0, hy0⟩ := ih h
      refine ⟨c :: x, y, by rw [hxy, List.cons_append], ?_, ?_, hy0⟩
      · rw [replace_cons_neg hp r hm, hrep, List.cons_append]
      · rw [countOcc, hx0]
        have hnp : ¬ p <+: (c :: x) := by
          intro hpre
          apply hm
          have hxpre : (c :: x) <+: (c :: s') := by
            rw [hxy, ← List.cons_append]
            exact List.prefix_append _ _
          exact hpre.trans hxpre
        rw [if_neg hnp]

theorem no_match_before_block [DecidableEq α] {q z : List α} (hcross : NoCross q z)
    {x : List α} (hx : countOcc q x = 0) (rest : List α) :
    ∀ i, i < x.length → ¬ q <+: (x ++ (z ++ rest)).drop i := by
  have hq : q ≠ [] := fun h => hcross.1 (h ▸ List.nil_infix)
  intro i hi hpre
  rw [List.drop_append_eq_append_drop, Nat.sub_eq_zero_of_le (le_of_lt hi),
    List.drop_zero] at hpre
  have h2 := prefix_through_block hcross (x.drop i) rest hpre
  exact ((countOcc_eq_zero_iff hq x).mp hx) ((infix_iff_drop _ _).mpr ⟨i, h2⟩)

theorem no_match_before_pattern [DecidableEq α] {q : List α} (hq : q ≠ [])
    (hb : BorderFree q) {x : List α} (hx : countOcc q x = 0) (rest : List α) :
    ∀ i, i < x.length → ¬ q <+: (x ++ (q ++ rest)).drop i := by
  intro i hi hpre
  rw [List.drop_append_eq_append_drop, Nat.sub_eq_zero_of_le (le_of_lt hi),
    List.drop_zero] at hpre
  have hxd : x.drop i ≠ [] := by
    intro h
    have := congrArg List.length h
    rw [List.length_drop] at this
    simp only [List.length_nil] at this
    omega
  have h2 := prefix_through_pattern hb (x.drop i) rest hxd hpre
  exact ((countOcc_eq_zero_iff hq x).mp hx) ((infix_iff_drop _ _).mpr ⟨i, h2⟩)

theorem rm_ne_nil (w : List Char) : replacement_mask (data_uri w) ≠ [] := by
  intro h
  have hl := congrArg List.length h
  rw [replacement_mask_length, data_uri_length] at hl
  simp only [List.length_nil] at hl
  omega

theorem rwk_ne_nil (w : List Char) : replacement_webkit (data_uri w) ≠ [] := by
  intro h
  have hl := congrArg List.length h
  rw [replacement_webkit_length, data_uri_length] at hl
  simp only [List.length_nil] at hl
  omega

theorem rm_borderFree {w : List Char} (hw : quoteC ∉ w) :
    BorderFree (replacement_mask (data_uri w)) := by
  rw [replacement_mask_parts]
  exact rm_borderFree_parts hw

theorem rwk_borderFree {w : List Char} (hw : quoteC ∉ w) :
    BorderFree (replacement_webkit (data_uri w)) := by
  rw [replacement_webkit_parts]
  exact rwk_borderFree_parts hw

/-- Claim C1, amended: on a source text containing each target exactly once
and no occurrence of either replacement string, with a payload free of
single quotes (any base64 text qualifies), the output contains no target
occurrence and exactly one occurrence of each replacement string; both
replacement strings embed the same data URI by construction. -/
theorem claim_C1_amended (w s : List Char) (hw : quoteC ∉ w)
    (h1 : countOcc target_mask s = 1) (h2 : countOcc target_webkit s = 1)
    (hr1 : ¬ replacement_mask (data_uri w) <:+: s)
    (hr2 : ¬ replacement_webkit (data_uri w) <:+: s) :
    countOcc target_mask (new_content (data_uri w) s) = 0 ∧
      countOcc target_webkit (new_content (data_uri w) s) = 0 ∧
      countOcc (replacement_mask (data_uri w)) (new_content (data_uri w) s) = 1 ∧
      countOcc (replacement_webkit (data_uri w)) (new_content (data_uri w) s) = 1 := by
  obtain ⟨hz1, hz2⟩ := new_content_no_targets hw s
  have hzc1 : countOcc target_mask (new_content (data_uri w) s) = 0 :=
    (countOcc_eq_zero_iff target_mask_ne_nil _).mpr ((not_infix_iff_drop _ _).mpr hz1)
  have hzc2 : countOcc target_webkit (new_content (data_uri w) s) = 0 :=
    (countOcc_eq_zero_iff target_webkit_ne_nil _).mpr ((not_infix_iff_drop _ _).mpr hz2)
  obtain ⟨x, y, hsxy, hR1, hx0, hy0⟩ :=
    replace_single_match (r := replacement_mask (data_uri w)) target_mask_ne_nil
      target_mask_borderFree s h1
  have hsplit2 : countOcc target_webkit x + countOcc target_webkit y = 1 := by
    have hb := countOcc_append_block noCross_twk_tm x y
    rw [← hsxy] at hb
    omega
  have hrmne := rm_ne_nil w
  have hrwkne := rwk_ne_nil w
  have hrmbf := rm_borderFree hw
  have hrwkbf := rwk_borderFree hw
  have hxin : x <:+: s := ⟨[], target_mask ++ y, by rw [List.nil_append, ← hsxy]⟩
  have hcases : (countOcc target_webkit x = 0 ∧ countOcc target_webkit y = 1) ∨
      (countOcc target_webkit x = 1 ∧ countOcc target_webkit y = 0) := by omega
  rcases hcases with ⟨hcx, hcy⟩ | ⟨hcx, hcy⟩
  · obtain ⟨y₁, y₂, hy12, _, hy10, hy20⟩ :=
      replace_single_match (r := replacement_webkit (data_uri w)) target_webkit_ne_nil
        target_webkit_borderFree y hcy
    have hout : new_content (data_uri w) s =
        x ++ (replacement_mask (data_uri w) ++
          (y₁ ++ (replacement_webkit (data_uri w) ++ y₂))) := by
      show replace target_webkit (replacement_webkit (data_uri w))
          (replace target_mask (replacement_mask (data_uri w)) s) = _
      rw [hR1, hy12,
        replace_append_of_no_match target_webkit_ne_nil _ x _
          (no_match_before_block (noCross_twk_rm hw) hcx _),
        replace_block_absorb target_webkit_ne_nil (noCross_twk_rm hw) _ _,
        replace_append_of_no_match target_webkit_ne_nil _ y₁ _
          (no_match_before_pattern target_webkit_ne_nil target_webkit_borderFree hy10 _),
        replace_pattern_head target_webkit_ne_nil _ _,
        replace_of_no_occ target_webkit_ne_nil _
          ((countOcc_eq_zero_iff target_webkit_ne_nil _).mp hy20)]
    have hy1in : y₁ <:+: s := ⟨x ++ target_mask, target_webkit ++ y₂, by
      rw [hsxy, hy12]
      simp [List.append_assoc]⟩
    have hy2in : y₂ <:+: s := ⟨x ++ target_mask ++ y₁ ++ target_webkit, [], by
      rw [hsxy, hy12]
      simp [List.append_assoc]⟩
    refine ⟨hzc1, hzc2, ?_, ?_⟩
    · rw [hout, countOcc_sandwich hrmne hrmbf,
        countOcc_append_block (noCross_rm_rwk hw),
        countOcc_zero_of_infix hrmne hxin hr1,
        countOcc_zero_of_infix hrmne hy1in hr1,
        countOcc_zero_of_infix hrmne hy2in hr1]
    · rw [hout, countOcc_append_block (noCross_rwk_rm hw),
        countOcc_sandwich hrwkne hrwkbf,
        countOcc_zero_of_infix hrwkne hxin hr2,
        countOcc_zero_of_infix hrwkne hy1in hr2,
        countOcc_zero_of_infix hrwkne hy2in hr2]
  · obtain ⟨x₁, x₂, hx12, _, hx10, hx20⟩ :=
      replace_single_match (r := replacement_webkit (data_uri w)) target_webkit_ne_nil
        target_webkit_borderFree x hcx
    have hre : x ++ (replacement_mask (data_uri w) ++ y) =
        x₁ ++ (target_webkit ++ (x₂ ++ (replacement_mask (data_uri w) ++ y))) := by
      rw [hx12]
      simp [List.append_assoc]
    have hout : new_content (data_uri w) s =
        x₁ ++ (replacement_webkit (data_uri w) ++
          (x₂ ++ (replacement_mask (data_uri w) ++ y))) := by
      show replace target_webkit (replacement_webkit (data_uri w))
          (replace target_mask (replacement_mask (data_uri w)) s) = _
      rw [hR1, hre,
        replace_append_of_no_match target_webkit_ne_nil _ x₁ _
          (no_match_before_pattern target_webkit_ne_nil target_webkit_borderFree hx10 _),
        replace_pattern_head target_webkit_ne_nil _ _,
        replace_append_of_no_match target_webkit_ne_nil _ x₂ _
          (no_match_before_block (noCross_twk_rm hw) hx20 _),
        replace_block_absorb target_webkit_ne_nil (noCross_twk_rm hw) _ _,
        replace_of_no_occ target_webkit_ne_nil _
          ((countOcc_eq_zero_iff target_webkit_ne_nil _).mp hcy)]
    have hx1in : x₁ <:+: s := ⟨[],
      target_webkit ++ (x₂ ++ (target_mask ++ y)), by
        rw [hsxy, hx12]
        simp [List.append_assoc]⟩
    have hx2in : x₂ <:+: s := ⟨x₁ ++ target_webkit, target_mask ++ y, by
      rw [hsxy, hx12]
      simp [List.append_assoc]⟩
    have hyin : y <:+: s := ⟨x ++ target_mask, [], by
      rw [hsxy]
      simp [List.append_assoc]⟩
    refine ⟨hzc1, hzc2, ?_, ?_⟩
    · rw [hout, countOcc_append_block (noCross_rm_rwk hw),
        countOcc_sandwich hrmne hrmbf,
        countOcc_zero_of_infix hrmne hx1in hr1,
        countOcc_zero_of_infix hrmne hx2in hr1,
        countOcc_zero_of_infix hrmne hyin hr1]
    · rw [hout, countOcc_sandwich hrwkne hrwkbf,
        countOcc_append_block (noCross_rwk_rm hw),
        countOcc_zero_of_infix hrwkne hx1in hr2,
        countOcc_zero_of_infix hrwkne hx2in hr2,
        countOcc_zero_of_infix hrwkne hyin hr2]

theorem claim_C1_amended_witness :
    (quoteC ∉ "AAAA".data ∧
        countOcc target_mask (target_mask ++ target_webkit) = 1 ∧
        countOcc target_webkit (target_mask ++ target_webkit) = 1 ∧
        ¬ replacement_mask (data_uri "AAAA".data) <:+: (target_mask ++ target_webkit) ∧
        ¬ replacement_webkit (data_uri "AAAA".data) <:+: (target_mask ++ target_webkit)) ∧
      countOcc target_mask
          (new_content (data_uri "AAAA".data) (target_mask ++ target_webkit)) = 0 ∧
        countOcc target_webkit
          (new_content (data_uri "AAAA".data) (target_mask ++ target_webkit)) = 0 ∧
        countOcc (replacement_mask (data_uri "AAAA".data))
          (new_content (data_uri "AAAA".data) (target_mask ++ target_webkit)) = 1 ∧
        countOcc (replacement_webkit (data_uri "AAAA".data))
          (new_content (data_uri "AAAA".data) (target_mask ++ target_webkit)) = 1 :=
  ⟨⟨by decide, by decide, by decide, by decide, by decide⟩,
    claim_C1_amended "AAAA".data (target_mask ++ target_webkit) (by decide)
      (by decide) (by decide) (by decide) (by decide)⟩

/-- Claim C8 counterexample: no set of three fixed messages covers every
run: the two error messages, the warning, and the success message are four
pairwise distinct strings, each printed on some input. -/
theorem claim_C8_counterexample :
    ¬ ∃ m₁ m₂ m₃ : List Char, ∀ wrld : World,
      (run wrld).output = [m₁] ∨ (run wrld).output = [m₂] ∨
        (run wrld).output = [m₃] := by
  rintro ⟨m₁, m₂, m₃, h⟩
  have h1 := h (World.mk none none)
  have h2 := h (World.mk (some []) none)
  have h3 := h (World.mk (some []) (some []))
  have h4 := h (World.mk (some target_mask) (some []))
  have e1 : (run (World.mk none none)).output = [errIconsMsg] := by decide
  have e2 : (run (World.mk (some []) none)).output = [errB64Msg] := by decide
  have e3 : (run (World.mk (some []) (some []))).output = [warnMsg] := by decide
  have e4 : (run (World.mk (some target_mask) (some []))).output = [successMsg] := by
    decide
  rw [e1] at h1
  rw [e2] at h2
  rw [e3] at h3
  rw [e4] at h4
  have d12 : errIconsMsg ≠ errB64Msg := by decide
  have d13 : errIconsMsg ≠ warnMsg := by decide
  have d14 : errIconsMsg ≠ successMsg := by decide
  have d23 : errB64Msg ≠ warnMsg := by decide
  have d24 : errB64Msg ≠ successMsg := by decide
  have d34 : warnMsg ≠ successMsg := by decide
  rcases h1 with h1 | h1 | h1 <;> rcases h2 with h2 | h2 | h2 <;>
    rcases h3 with h3 | h3 | h3 <;> rcases h4 with h4 | h4 | h4 <;>
    simp only [List.cons.injEq, and_true] at h1 h2 h3 h4 <;>
    first
      | exact d12 (h1.trans h2.symm)
      | exact d13 (h1.trans h3.symm)
      | exact d14 (h1.trans h4.symm)
      | exact d23 (h2.trans h3.symm)
      | exact d24 (h2.trans h4.symm)
      | exact d34 (h3.trans h4.symm)
